import Mathlib

/-!
Verification development for the `opencode-repo-local-plugin` repository.

The repository reference parser (`src/lib/url.ts`) is embedded as pure Lean
functions over `Str := List Char` (JavaScript strings modelled as ASCII
character lists; the JS string methods used by the source — `trim`,
`toLowerCase`, `split`, `indexOf`, `includes`, `startsWith`, regex tests —
are modelled character by character).  The synchronization engine
(`src/tools/repo-ensure-local.ts`) is embedded as explicit state passing
over a `World` carrying the observable git state and a trace of the
mutating adapter calls.  The VCS adapter (`src/lib/git.ts`), the path
builder (`src/lib/paths.ts`) and the freshness computation are not present
in the source snapshot; they are modelled from the specification and are
marked as such in their doc comments.
-/

namespace RepoPlugin

/-- JavaScript strings are modelled as lists of characters. -/
abbrev Str := List Char

/-- Whitespace recognised by JavaScript `String.prototype.trim`
(ASCII whitespace, NBSP, BOM, line/paragraph separators). -/
def jsWs (c : Char) : Bool :=
  c.toNat = 32 ∨ c.toNat = 9 ∨ c.toNat = 10 ∨ c.toNat = 11 ∨ c.toNat = 12 ∨
  c.toNat = 13 ∨ c.toNat = 160 ∨ c.toNat = 65279 ∨ c.toNat = 8232 ∨ c.toNat = 8233

/-- ASCII lowercasing of one character, as JavaScript `toLowerCase` acts on
the ASCII range (the only range exercised by this development). -/
def lowChar (c : Char) : Char :=
  if 65 ≤ c.toNat ∧ c.toNat ≤ 90 then Char.ofNat (c.toNat + 32) else c

/-- JavaScript `toLowerCase` on a whole string. -/
def lowerStr (s : Str) : Str := s.map lowChar

/-- JavaScript `String.prototype.trim`. -/
def strTrim (s : Str) : Str :=
  ((s.dropWhile jsWs).reverse.dropWhile jsWs).reverse

/-- Strip all leading and trailing slashes, the `replace(/^\/+|\/+$/g, "")`
of `splitPathSegments`. -/
def stripSlashes (s : Str) : Str :=
  ((s.dropWhile (· = '/')).reverse.dropWhile (· = '/')).reverse

/-- JavaScript `String.prototype.split` on a single separator character. -/
def splitChar (sep : Char) : Str → List Str
  | [] => [[]]
  | c :: cs =>
    match splitChar sep cs with
    | [] => [[c]]
    | s :: ss => if c = sep then [] :: s :: ss else (c :: s) :: ss

/-- JavaScript `Array.prototype.join` with a one-character separator. -/
def joinSep (sep : Char) : List Str → Str
  | [] => []
  | [s] => s
  | s :: s' :: rest => s ++ sep :: joinSep sep (s' :: rest)

/-- Apply a function to the last element of a list (models the in-place
update `segments[lastIndex] = ...` of `splitPathSegments`). -/
def setLast (f : Str → Str) : List Str → List Str
  | [] => []
  | [s] => [f s]
  | s :: s' :: rest => s :: setLast f (s' :: rest)

/-- Drop one trailing `.git` (case-insensitive), the
`replace(/\.git$/i, "")` of `splitPathSegments`. -/
def dropGitSuffix (s : Str) : Str :=
  if lowerStr (s.drop (s.length - 4)) = ".git".toList then s.take (s.length - 4) else s

/-- Decide whether `pat` occurs as a contiguous subsequence of `s`
(JavaScript `String.prototype.includes`). -/
def containsSeq (pat : Str) : Str → Bool
  | [] => pat.isPrefixOf []
  | c :: rest => pat.isPrefixOf (c :: rest) || containsSeq pat rest

/-- Error codes of `RepoPluginError` (`src/lib/errors.ts` is absent from the
snapshot; the constructor names are taken from the call sites in the source
and, for `PATH_ESCAPE`, from the spec's error taxonomy).  `JS_TYPE_ERROR`
stands for a native `TypeError` escaping `new URL`. -/
inductive ErrCode
  | INVALID_URL
  | NOT_GIT_REPO
  | REPO_URL_MISMATCH
  | DIRTY_WORKTREE
  | DETACHED_HEAD
  | INVALID_UPDATE_MODE
  | INVALID_ARGS
  | VCS_OPERATION_FAILED
  | PATH_ESCAPE
  | JS_TYPE_ERROR
deriving DecidableEq, Repr

/-- The `RepoPluginError` carrier: a code plus human-readable message. -/
structure RepoPluginError where
  code : ErrCode
  message : String
  details : Option String := none
deriving DecidableEq, Repr

/-- The `ParsedRepoUrl` record of `src/lib/types.ts`, as constructed by
`buildParsed` in `src/lib/url.ts`. -/
structure ParsedRepoUrl where
  raw : Str
  host : Str
  pathSegments : List Str
  canonicalUrl : Str
  key : Str
deriving DecidableEq, Repr

/-- Decidable equality for `Except`, used to evaluate concrete runs. -/
instance {ε α : Type} [DecidableEq ε] [DecidableEq α] :
    DecidableEq (Except ε α) := fun a b =>
  match a, b with
  | .ok x, .ok y =>
    if h : x = y then .isTrue (by rw [h]) else .isFalse (by simp [h])
  | .error x, .error y =>
    if h : x = y then .isTrue (by rw [h]) else .isFalse (by simp [h])
  | .ok _, .error _ => .isFalse (by simp)
  | .error _, .ok _ => .isFalse (by simp)

/-- Build a `RepoPluginError` without the optional remediation details. -/
def mkErr (code : ErrCode) (message : String) : RepoPluginError :=
  ⟨code, message, none⟩

/-- Project the success value of an `Except` (used to state hypotheses with
decidable equality on `Option`). -/
def okOf : Except RepoPluginError α → Option α
  | .ok a => some a
  | .error _ => none

/-- Project the error code of an `Except`. -/
def errCodeOf : Except RepoPluginError α → Option ErrCode
  | .ok _ => none
  | .error e => some e.code

/-- The `GITHUB_WEB_MARKERS` set of `src/lib/url.ts`. -/
def GITHUB_WEB_MARKERS : List Str :=
  ["tree", "blob", "commit", "pull", "issues", "actions", "releases", "wiki"].map
    String.toList

/-- `normalizePathSegments` of `src/lib/url.ts`: collapse a GitHub web
deep-link (third segment a web-UI marker) to its repository root. -/
def normalizePathSegments (host : Str) (segments : List Str) : List Str :=
  if lowerStr host ≠ "github.com".toList then segments
  else if 3 ≤ segments.length ∧ segments.getD 2 [] ∈ GITHUB_WEB_MARKERS then
    segments.take 2
  else segments

/-- `splitPathSegments` of `src/lib/url.ts`. -/
def splitPathSegments (input : Str) : List Str :=
  let trimmed := stripSlashes (strTrim input)
  if trimmed = [] then []
  else
    let segments := (splitChar '/' trimmed).filter (· ≠ [])
    if segments = [] then []
    else setLast dropGitSuffix segments

/-- `validateSegments` of `src/lib/url.ts` as an `Except` (the source throws
`RepoPluginError("INVALID_URL", ...)`). -/
def validateSegments (segments : List Str) : Except RepoPluginError Unit :=
  if segments.length < 2 then
    .error (mkErr .INVALID_URL "Repository URL must include owner and repository name")
  else if segments.any (fun s => s = [] ∨ s = ['.'] ∨ s = ['.', '.']) then
    .error (mkErr .INVALID_URL "Repository URL contains an invalid path segment")
  else .ok ()

/-- `makeRepoKey` of `src/lib/url.ts`. -/
def makeRepoKey (host : Str) (segments : List Str) : Str :=
  lowerStr host ++ '/' :: lowerStr (joinSep '/' segments)

/-- Protocol tag of `buildParsed` ("https" | "ssh"). -/
inductive Proto
  | https
  | ssh
deriving DecidableEq, Repr

/-- `buildParsed` of `src/lib/url.ts`.  Every call site of the source passes
an already-split segment array, so the `string` overload of its
`segmentsInput` parameter is dead code and is not modelled. -/
def buildParsed (raw host : Str) (segmentsInput : List Str) (protocol : Proto) :
    Except RepoPluginError ParsedRepoUrl :=
  let segments := normalizePathSegments host segmentsInput
  match validateSegments segments with
  | .error e => .error e
  | .ok _ =>
    let normalizedHost := lowerStr host
    let canonicalPath := joinSep '/' segments
    let canonicalUrl :=
      match protocol with
      | .https => "https://".toList ++ normalizedHost ++ '/' :: canonicalPath ++ ".git".toList
      | .ssh => "git@".toList ++ normalizedHost ++ ':' :: canonicalPath ++ ".git".toList
    .ok ⟨raw, normalizedHost, segments, canonicalUrl, makeRepoKey normalizedHost segments⟩

/-- Result of the WHATWG `URL` constructor, restricted to the three fields the
source reads. -/
structure JsUrl where
  protocol : Str
  hostname : Str
  pathname : Str
deriving DecidableEq, Repr

/-- Characters allowed in a URL scheme. -/
def isSchemeChar (c : Char) : Bool :=
  (97 ≤ c.toNat ∧ c.toNat ≤ 122) ∨ (65 ≤ c.toNat ∧ c.toNat ≤ 90) ∨
  (48 ≤ c.toNat ∧ c.toNat ≤ 57) ∨ c = '+' ∨ c = '-' ∨ c = '.'

/-- Dot path segment of the WHATWG path parser (`.` or a percent-encoded
variant, case-insensitive). -/
def isSingleDotSeg (s : Str) : Bool :=
  s = ['.'] ∨ lowerStr s = "%2e".toList

/-- Double-dot path segment of the WHATWG path parser. -/
def isDoubleDotSeg (s : Str) : Bool :=
  s = ['.', '.'] ∨ lowerStr s = ".%2e".toList ∨ lowerStr s = "%2e.".toList ∨
  lowerStr s = "%2e%2e".toList

/-- WHATWG dot-segment removal over the list of raw path segments: `..` pops
the previous segment and `.` is dropped; when they are the final segment an
empty segment is kept so the serialized path keeps its trailing slash. -/
def processDots (acc : List Str) : List Str → List Str
  | [] => acc
  | s :: rest =>
    if isDoubleDotSeg s then
      if rest = [] then acc.dropLast ++ [[]] else processDots acc.dropLast rest
    else if isSingleDotSeg s then
      if rest = [] then acc ++ [[]] else processDots acc rest
    else processDots (acc ++ [s]) rest

/-- Scheme part of a URL: the characters before the first `:`. -/
def jsScheme (raw : Str) : Str := raw.takeWhile (· ≠ ':')

/-- ASCII decimal digit. -/
def isDigitChar (c : Char) : Bool := 48 ≤ c.toNat ∧ c.toNat ≤ 57

/-- Digit of the given radix (10, 8 or 16; hex accepts both cases). -/
def isRadixDigit (radix : Nat) (c : Char) : Bool :=
  if radix = 16 then
    isDigitChar c ∨ (97 ≤ c.toNat ∧ c.toNat ≤ 102) ∨ (65 ≤ c.toNat ∧ c.toNat ≤ 70)
  else if radix = 8 then 48 ≤ c.toNat ∧ c.toNat ≤ 55
  else isDigitChar c

/-- Numeric value of a radix digit. -/
def radixVal (c : Char) : Nat :=
  if 97 ≤ c.toNat then c.toNat - 87
  else if 65 ≤ c.toNat then c.toNat - 55
  else c.toNat - 48

/-- The WHATWG *IPv4 number parser*: an optional `0x`/`0X` (hex) or `0`
(octal) prefix followed by radix digits; an empty input fails, a bare
prefix parses as `0`. -/
def ipv4NumPart (s : Str) : Option Nat :=
  if s = [] then none
  else
    let (radix, rest) :=
      if s.take 2 = "0x".toList ∨ s.take 2 = "0X".toList then (16, s.drop 2)
      else if 2 ≤ s.length ∧ s.take 1 = ['0'] then (8, s.drop 1)
      else (10, s)
    if rest = [] then some 0
    else if rest.all (isRadixDigit radix) then
      some (rest.foldl (fun a c => a * radix + radixVal c) 0)
    else none

/-- The WHATWG *ends-in-a-number* checker: strictly split on `.`, drop one
trailing empty label, and test whether the last label is all decimal digits
or parses as an IPv4 number. -/
def endsInANumber (host : Str) : Bool :=
  let parts := splitChar '.' host
  let parts := if parts.getLast? = some [] then parts.dropLast else parts
  match parts.getLast? with
  | none => false
  | some lastPart =>
    (lastPart ≠ [] ∧ lastPart.all isDigitChar) ∨ (ipv4NumPart lastPart).isSome

/-- The WHATWG *IPv4 parser*: strictly split on `.`, drop one trailing
empty label, require at most four parts, parse each as an IPv4 number,
bound all but the last by 255 and the last by `256^(5 - n)`, and combine
into a 32-bit address. -/
def parseIPv4 (host : Str) : Option Nat :=
  let parts := splitChar '.' host
  let parts := if parts.getLast? = some [] ∧ 1 < parts.length then parts.dropLast else parts
  if 4 < parts.length then none
  else
    match parts.mapM ipv4NumPart with
    | none => none
    | some numbers =>
      match numbers.getLast? with
      | none => none
      | some lastNum =>
        if numbers.dropLast.any (fun n => 255 < n) then none
        else if 256 ^ (5 - numbers.length) ≤ lastNum then none
        else some (numbers.dropLast.enum.foldl
          (fun acc p => acc + p.2 * 256 ^ (3 - p.1)) lastNum)

/-- The WHATWG *IPv4 serializer*: four dot-separated decimal bytes, most
significant first. -/
def serializeIPv4 (address : Nat) : Str :=
  joinSep '.'
    [(Nat.repr (address / 16777216 % 256)).toList,
     (Nat.repr (address / 65536 % 256)).toList,
     (Nat.repr (address / 256 % 256)).toList,
     (Nat.repr (address % 256)).toList]

/-- Whether some dot-separated label of the host carries the IDNA ACE
prefix `xn--` (such labels are punycode-decoded by `domain to ASCII`,
which is outside the modelled domain). -/
def hasPunycodeLabel (host : Str) : Bool :=
  (splitChar '.' host).any (fun lab => lab.take 4 = "xn--".toList)

/-- WHATWG host parsing of an authority (userinfo up to the last `@` is
stripped, then a decimal port after `:` is stripped and checked); special
schemes lowercase the host, reject an empty one, and run the IPv4 parser
on a host that ends in a number, serializing the result (an invalid IPv4
host throws, i.e. yields `none`). -/
def jsAuthorityHost (special : Bool) (authority : Str) : Option Str :=
  let hostPort := (authority.reverse.takeWhile (· ≠ '@')).reverse
  let hostRaw := hostPort.takeWhile (· ≠ ':')
  let portPart := hostPort.drop hostRaw.length
  let portOk : Bool :=
    match portPart with
    | [] => true
    | _ :: digits => digits.all fun c => 48 ≤ c.toNat ∧ c.toNat ≤ 57
  if portOk = false then none
  else if special ∧ hostRaw = [] then none
  else if special then
    let dom := lowerStr hostRaw
    if endsInANumber dom then (parseIPv4 dom).map serializeIPv4
    else some dom
  else some hostRaw

/-- WHATWG path serialization: split on `/`, remove dot segments, re-join
behind a leading slash (special URLs serialize an empty path as `/`). -/
def jsPathname (special : Bool) (pathOnly : Str) : Str :=
  match pathOnly with
  | [] => if special then ['/'] else []
  | _ :: pathRest => '/' :: joinSep '/' (processDots [] (splitChar '/' pathRest))

/-- Authority-and-path stage of the URL parser: cut the authority at the
first `/`, `?` or `#`, parse its host, cut the path at `?` or `#`. -/
def jsUrlAuthPath (special : Bool) (lowScheme rest : Str) : Option JsUrl :=
  let authority := rest.takeWhile (fun c => c ≠ '/' ∧ c ≠ '?' ∧ c ≠ '#')
  match jsAuthorityHost special authority with
  | none => none
  | some hostname =>
    let pathOnly := (rest.drop authority.length).takeWhile (fun c => c ≠ '?' ∧ c ≠ '#')
    some ⟨lowScheme ++ [':'], hostname, jsPathname special pathOnly⟩

/-- Stage after the `scheme://` prefix has been recognised: special URLs
treat backslashes as slashes. -/
def jsUrlWithRest (lowScheme rest : Str) : Option JsUrl :=
  let special : Bool := lowScheme = "http".toList ∨ lowScheme = "https".toList
  jsUrlAuthPath special lowScheme
    (if special then rest.map (fun c => if c = '\\' then '/' else c) else rest)

/-- Model of the WHATWG `new URL(raw)` constructor on the domain this source
exercises: absolute `http`/`https`/`ssh` URLs written with `//` after the
scheme.  Special-scheme hosts are ASCII-lowercased and must be non-empty,
and a special-scheme host that ends in a number is parsed and re-serialized
as an IPv4 address (failing on an invalid one); a userinfo part (up to the
last `@`) and a decimal port are stripped from the authority; the path is
cut at `?` or `#`, backslashes in special URLs act as slashes, and dot
segments are removed.  Percent-decoding, IDNA (in particular punycode
`xn--` labels) and the full forbidden-host-code-point table are outside
the modelled domain. -/
def jsURL (raw : Str) : Option JsUrl :=
  if jsScheme raw = [] ∨ ¬ (jsScheme raw).all isSchemeChar then none
  else
    match raw.drop (jsScheme raw).length with
    | ':' :: '/' :: '/' :: rest => jsUrlWithRest (lowerStr (jsScheme raw)) rest
    | _ => none

/-- `parseHttpLikeUrl` of `src/lib/url.ts`.  A `TypeError` thrown by
`new URL` is represented by the `JS_TYPE_ERROR` code. -/
def parseHttpLikeUrl (raw : Str) : Except RepoPluginError ParsedRepoUrl :=
  match jsURL raw with
  | none => .error (mkErr .JS_TYPE_ERROR "Invalid URL")
  | some url =>
    if url.protocol ≠ "https:".toList then
      .error (mkErr .INVALID_URL "Repository URL must use https:// format")
    else buildParsed raw url.hostname (splitPathSegments url.pathname) .https

/-- The `/^https?:\/\//i` test of `src/lib/url.ts`. -/
def httpOrHttpsTest (raw : Str) : Bool :=
  lowerStr (raw.take 7) = "http://".toList ∨ lowerStr (raw.take 8) = "https://".toList

/-- `parseHostWithPath` of `src/lib/url.ts`.  `none` is the source's `null`
("not this form"); `some` commits to the form and carries `buildParsed`'s
outcome, including its possible validation error. -/
def parseHostWithPath (raw : Str) : Option (Except RepoPluginError ParsedRepoUrl) :=
  if containsSeq "://".toList raw ∨ ("git@".toList).isPrefixOf raw then none
  else
    let firstSlash := raw.findIdx (· = '/')
    if firstSlash = raw.length ∨ firstSlash = 0 then none
    else
      let host := strTrim (raw.take firstSlash)
      let pathValue := strTrim (raw.drop (firstSlash + 1))
      if host = [] ∨ pathValue = [] then none
      else if ¬ (host.contains '.' ∨ host.contains ':') then none
      else some (buildParsed raw host (splitPathSegments pathValue) .https)

/-- `parseGitHubShorthand` of `src/lib/url.ts`. -/
def parseGitHubShorthand (raw : Str) : Option (Except RepoPluginError ParsedRepoUrl) :=
  if containsSeq "://".toList raw ∨ ("git@".toList).isPrefixOf raw then none
  else
    let segments := splitPathSegments raw
    if segments.length < 2 then none
    else some (buildParsed raw ("github.com".toList) segments .https)

/-- Line terminators that JavaScript regex `.` does not match. -/
def isLineTerm (c : Char) : Bool :=
  c.toNat = 10 ∨ c.toNat = 13 ∨ c.toNat = 8232 ∨ c.toNat = 8233

/-- Match of `SSH_PATTERN = /^git@([^:/]+):(.+)$/` against `raw`, returning
host and path captures.  The first capture is the run of non-`:`/`/`
characters after `git@` (it must be non-empty and be followed by `:`), and
the second must be non-empty and free of line terminators, which `.` does
not match. -/
def sshMatch (raw : Str) : Option (Str × Str) :=
  if ("git@".toList).isPrefixOf raw then
    let after := raw.drop 4
    let host := after.takeWhile (fun c => c ≠ ':' ∧ c ≠ '/')
    match after.drop host.length with
    | ':' :: path =>
      if host ≠ [] ∧ path ≠ [] ∧ ¬ path.any isLineTerm then some (host, path)
      else none
    | _ => none
  else none

/-- `invalidUrlErrorMessage` of `src/lib/url.ts`. -/
def invalidUrlErrorMessage (allowSsh : Bool) : String :=
  if allowSsh then
    "Repository must be one of: https://host/owner/repo(.git), git@host:owner/repo.git, host/owner/repo, or owner/repo (GitHub shorthand)"
  else
    "Repository must be one of: https://host/owner/repo(.git), host/owner/repo, or owner/repo (GitHub shorthand)"

/-- `parseRepoUrl` of `src/lib/url.ts`: the reference parser's entry point. -/
def parseRepoUrl (repo : Str) (allowSsh : Bool) : Except RepoPluginError ParsedRepoUrl :=
  let raw := strTrim repo
  if raw = [] then .error (mkErr .INVALID_URL "Repository URL is required")
  else if httpOrHttpsTest raw then parseHttpLikeUrl raw
  else
    match parseHostWithPath raw with
    | some r => r
    | none =>
      match parseGitHubShorthand raw with
      | some r => r
      | none =>
        if allowSsh then
          match sshMatch raw with
          | some (host, path) => buildParsed raw host (splitPathSegments path) .ssh
          | none =>
            if ("ssh://".toList).isPrefixOf raw then
              match jsURL raw with
              | none => .error (mkErr .JS_TYPE_ERROR "Invalid URL")
              | some url =>
                if url.protocol = "ssh:".toList then
                  buildParsed raw url.hostname (splitPathSegments url.pathname) .ssh
                else .error (mkErr .INVALID_URL (invalidUrlErrorMessage allowSsh))
            else .error (mkErr .INVALID_URL (invalidUrlErrorMessage allowSsh))
        else .error (mkErr .INVALID_URL (invalidUrlErrorMessage allowSsh))

/-! ### Path builder (modelled from the spec) -/

/-- Filesystem paths are modelled as lists of path components. -/
abbrev FsPath := List Str

/-- Modelled from the spec: POSIX-style path resolution over components, as
`path.resolve` collapses them — empty and `.` components disappear and `..`
removes the previous component (`src/lib/paths.ts` is absent from the
snapshot). -/
def resolveSegs (segs : FsPath) : FsPath :=
  segs.foldl
    (fun acc s =>
      if s = [] ∨ s = ['.'] then acc
      else if s = ['.', '.'] then acc.dropLast
      else acc ++ [s])
    []

/-- Candidate `q` resolves to a strict descendant of the resolved root. -/
def strictUnder (root q : FsPath) : Bool :=
  root.isPrefixOf q && q.length != root.length

/-- Modelled from the spec: `buildRepoPath` of `src/lib/paths.ts` (absent
from the snapshot).  It joins `clone_root/host/owner/repo` ("all path
segments exactly as canonicalized") and must reject with `PathEscape` any
result that does not resolve to a strict descendant of the resolved root. -/
def buildRepoPath (root : FsPath) (repo : ParsedRepoUrl) :
    Except RepoPluginError FsPath :=
  let resolvedRoot := resolveSegs root
  let candidate := resolveSegs (root ++ repo.host :: repo.pathSegments)
  if strictUnder resolvedRoot candidate then .ok candidate
  else .error (mkErr .PATH_ESCAPE "Resolved repository path escapes the clone root")

/-! ### Synchronization engine

The engine itself (`updateExistingRepo` and its helpers) is translated from
the tool source.  The VCS adapter it calls (`src/lib/git.ts`) is absent from
the snapshot, so the adapter operations are modelled from the spec over an
explicit observable git state; every mutating adapter call is also appended
to a trace so that theorems can speak about which operations were attempted.
Read-only queries (`getHeadSha`, `getCurrentRef`, `isWorktreeDirty`,
`getOriginUrl`, `isGitRepository`) read the state directly. -/

/-- Observable state of the local clone and its remote, per the spec's
`LocalClone` data model. -/
structure RepoState where
  isRepo : Bool
  originUrl : Str
  currentRef : Str
  headSha : Str
  dirty : Bool
  refs : List (Str × Str)
  trackingTips : List (Str × Str)
  remoteTips : List (Str × Str)
  ancestry : List (Str × Str)
deriving DecidableEq, Repr

/-- Mutating adapter calls, recorded in order of execution. -/
inductive GitCall
  | fetch
  | checkout (ref : Str)
  | pullFf (branch : Str)
  | hardReset (branch : Str)
deriving DecidableEq, Repr

/-- Engine world: git state plus the trace of mutating adapter calls. -/
structure World where
  repo : RepoState
  calls : List GitCall
deriving DecidableEq, Repr

/-- First value bound to a key in an association list. -/
def lookupStr (k : Str) : List (Str × Str) → Option Str
  | [] => none
  | (a, v) :: rest => if a = k then some v else lookupStr k rest

/-- Modelled from the spec: `fetchOrigin` of `src/lib/git.ts` — fetching
updates the local remote-tracking tips and never touches the working tree. -/
def fetchOrigin (w : World) : World :=
  ⟨{ w.repo with trackingTips := w.repo.remoteTips }, w.calls ++ [.fetch]⟩

/-- Modelled from the spec: `checkoutRef` of `src/lib/git.ts` — checking out
a resolvable ref moves `HEAD` there; an unresolvable ref makes the git
binary exit non-zero (`VcsOperationFailed`). -/
def checkoutRef (w : World) (r : Str) : World × Except RepoPluginError Unit :=
  match lookupStr r w.repo.refs with
  | some sha =>
    (⟨{ w.repo with currentRef := r, headSha := sha }, w.calls ++ [.checkout r]⟩, .ok ())
  | none =>
    (⟨w.repo, w.calls ++ [.checkout r]⟩,
      .error (mkErr .VCS_OPERATION_FAILED "git checkout failed"))

/-- Modelled from the spec: `pullFfOnlyForBranch` of `src/lib/git.ts` — a
fast-forward-only pull moves the branch to the fetched tracking tip exactly
when the old head is an ancestor of it, and refuses (non-zero exit)
otherwise. -/
def pullFfOnlyForBranch (w : World) (branch : Str) : World × Except RepoPluginError Unit :=
  let calls := w.calls ++ [.pullFf branch]
  match lookupStr branch w.repo.trackingTips with
  | none => (⟨w.repo, calls⟩, .error (mkErr .VCS_OPERATION_FAILED "git pull --ff-only failed"))
  | some tip =>
    if w.repo.headSha = tip then (⟨w.repo, calls⟩, .ok ())
    else if (w.repo.headSha, tip) ∈ w.repo.ancestry then
      (⟨{ w.repo with headSha := tip }, calls⟩, .ok ())
    else (⟨w.repo, calls⟩, .error (mkErr .VCS_OPERATION_FAILED "git pull --ff-only failed"))

/-- Modelled from the spec: `hardResetToOriginBranch` of `src/lib/git.ts` —
discards local changes and resets the current branch hard to the fetched
remote branch tip. -/
def hardResetToOriginBranch (w : World) (branch : Str) : World × Except RepoPluginError Unit :=
  let calls := w.calls ++ [.hardReset branch]
  match lookupStr branch w.repo.trackingTips with
  | none => (⟨w.repo, calls⟩, .error (mkErr .VCS_OPERATION_FAILED "git reset --hard failed"))
  | some tip =>
    (⟨{ w.repo with headSha := tip, dirty := false }, calls⟩, .ok ())

/-- Update policies of the tool (`UPDATE_MODES`). -/
inductive UpdateMode
  | ffOnly
  | fetchOnly
  | resetClean
deriving DecidableEq, Repr

/-- Result statuses of the tool. -/
inductive RepoEnsureStatus
  | cloned
  | updated
  | alreadyCurrent
  | fetched
deriving DecidableEq, Repr

/-- Action-log and sentinel strings of `src/tools/repo-ensure-local.ts`. -/
def headSentinel : Str := "HEAD".toList

/-- Action logged after `fetchOrigin` succeeds. -/
def actFetchedOrigin : Str := "fetched_origin".toList

/-- Action prefix logged by `checkoutIfRequested`. -/
def actCheckedOut : Str := "checked_out_".toList

/-- No-op action logged by `runFastForward` on a detached HEAD. -/
def actDetachedNoPull : Str := "detached_head_no_pull".toList

/-- Action prefix logged by `runFastForward` after a pull. -/
def actFastForwarded : Str := "fast_forwarded_".toList

/-- Action prefix logged by `runResetClean` after a hard reset. -/
def actResetClean : Str := "reset_clean_".toList

/-- `checkoutIfRequested` of `src/tools/repo-ensure-local.ts`. -/
def checkoutIfRequested (w : World) (ref : Option Str) (actions : List Str) :
    World × Except RepoPluginError (List Str) :=
  match ref with
  | none => (w, .ok actions)
  | some r =>
    match checkoutRef w r with
    | (w', .error e) => (w', .error e)
    | (w', .ok _) => (w', .ok (actions ++ [actCheckedOut ++ r]))

/-- `runFastForward` of `src/tools/repo-ensure-local.ts`. -/
def runFastForward (w : World) (actions : List Str) :
    World × Except RepoPluginError (List Str) :=
  if w.repo.dirty then
    (w, .error ⟨.DIRTY_WORKTREE,
      "Cannot fast-forward because working tree has local changes",
      some "Commit/stash changes or use update_mode=fetch-only"⟩)
  else
    let currentRef := w.repo.currentRef
    if currentRef = headSentinel then (w, .ok (actions ++ [actDetachedNoPull]))
    else
      match pullFfOnlyForBranch w currentRef with
      | (w', .error e) => (w', .error e)
      | (w', .ok _) => (w', .ok (actions ++ [actFastForwarded ++ currentRef]))

/-- `runResetClean` of `src/tools/repo-ensure-local.ts`. -/
def runResetClean (w : World) (actions : List Str) :
    World × Except RepoPluginError (List Str) :=
  let currentRef := w.repo.currentRef
  if currentRef = headSentinel then
    (w, .error (mkErr .DETACHED_HEAD
      "Cannot use reset-clean while repository is in detached HEAD state"))
  else
    match hardResetToOriginBranch w currentRef with
    | (w', .error e) => (w', .error e)
    | (w', .ok _) => (w', .ok (actions ++ [actResetClean ++ currentRef]))

/-- `ensureExistingCloneMatchesRemote` of `src/tools/repo-ensure-local.ts`.
The existing clone's origin URL is re-parsed with SSH allowed
unconditionally (`parseRepoUrl(originUrl, true)` in the source); the
caller's `allow_ssh` setting is not even in scope here. -/
def ensureExistingCloneMatchesRemote (w : World) (requestedRepo : ParsedRepoUrl) :
    Except RepoPluginError Unit :=
  if ¬ w.repo.isRepo then
    .error (mkErr .NOT_GIT_REPO "Target path exists but is not a git repository")
  else
    match parseRepoUrl w.repo.originUrl true with
    | .error e => .error e
    | .ok existingOrigin =>
      if existingOrigin.key = requestedRepo.key then .ok ()
      else .error ⟨.REPO_URL_MISMATCH,
        "Existing clone origin does not match requested repository",
        some "requested/existing canonical URLs differ"⟩

/-- `updateExistingRepo` of `src/tools/repo-ensure-local.ts`, with the
worlds threaded explicitly: verify the origin, record the head SHA, fetch,
optionally check out, apply the update policy, and derive the status. -/
def updateExistingRepo (w : World) (requestedRepo : ParsedRepoUrl) (mode : UpdateMode)
    (ref : Option Str) (actions : List Str) :
    World × Except RepoPluginError (RepoEnsureStatus × List Str) :=
  match ensureExistingCloneMatchesRemote w requestedRepo with
  | .error e => (w, .error e)
  | .ok _ =>
    let beforeSha := w.repo.headSha
    let w1 := fetchOrigin w
    let actions1 := actions ++ [actFetchedOrigin]
    match checkoutIfRequested w1 ref actions1 with
    | (w2, .error e) => (w2, .error e)
    | (w2, .ok actions2) =>
      match (if mode = .ffOnly then runFastForward w2 actions2 else (w2, .ok actions2)) with
      | (w3, .error e) => (w3, .error e)
      | (w3, .ok actions3) =>
        match (if mode = .resetClean then runResetClean w3 actions3 else (w3, .ok actions3)) with
        | (w4, .error e) => (w4, .error e)
        | (w4, .ok actions4) =>
          if mode = .fetchOnly then (w4, .ok (.fetched, actions4))
          else
            let afterSha := w4.repo.headSha
            (w4, .ok (if beforeSha = afterSha then .alreadyCurrent else .updated, actions4))

/-! ### Freshness (modelled from the spec) -/

/-- Freshness values of the result record. -/
inductive Freshness
  | current
  | stale
  | ahead
  | diverged
  | unknown
deriving DecidableEq, Repr

/-- Modelled from the spec: the freshness classification of the
Synchronization Engine.  The computation lives in code absent from the
snapshot (`src/lib/git.ts` ahead/behind counting and its wiring into the
tool); `scripts/integration-test.ts` requires the resulting field. -/
def classifyAheadBehind (aheadBy behindBy : Nat) : Freshness :=
  if aheadBy = 0 ∧ behindBy = 0 then .current
  else if aheadBy = 0 then .stale
  else if behindBy = 0 then .ahead
  else .diverged

/-- Modelled from the spec: freshness is `unknown` exactly when no
comparison ref resolves; otherwise it is classified from the ahead/behind
counts against the resolved comparison ref. -/
def computeFreshness (comparison : Option (Nat × Nat)) : Freshness :=
  match comparison with
  | none => .unknown
  | some (aheadBy, behindBy) => classifyAheadBehind aheadBy behindBy

/-! ### Tool wrapper and telemetry -/

/-- Result record of the tool (`RepoEnsureResult`), restricted to the fields
the telemetry claims observe. -/
structure RepoEnsureResult where
  status : RepoEnsureStatus
  repo_url : Str
  local_path : FsPath
  head_sha : Str
deriving DecidableEq, Repr

/-- Outcome of the tool's `execute`: either the serialized result returned
to the host, or the formatted error thrown by `formatFailure`. -/
inductive ToolOutcome
  | success (result : RepoEnsureResult)
  | failure (code : ErrCode) (message : String)
deriving DecidableEq, Repr

/-- Telemetry effect of one invocation: how many sink writes were attempted
and how many were persisted. -/
structure TelemetryEffect where
  attempted : Nat
  persisted : Nat
deriving DecidableEq, Repr

/-- `logRepoEnsureSuccess` / `logRepoEnsureFailure` of `src/lib/telemetry.ts`
(source present as `src/unnamed/part_001`): exactly one `appendEvent` is
attempted inside a `try`/`catch` whose handler discards any sink failure, so
a failing sink (modelled by `sinkOk = false`) persists nothing and throws
nothing. -/
def logRepoEnsure (sinkOk : Bool) : TelemetryEffect :=
  ⟨1, if sinkOk then 1 else 0⟩

/-- The `execute` wrapper of `repoEnsureLocalTool`
(`src/tools/repo-ensure-local.ts`): on success it logs then returns the
result, on failure it logs then rethrows via `formatFailure`. -/
def executeTool (opResult : Except RepoPluginError RepoEnsureResult) (sinkOk : Bool) :
    ToolOutcome × TelemetryEffect :=
  match opResult with
  | .ok r => (.success r, logRepoEnsure sinkOk)
  | .error e => (.failure e.code e.message, logRepoEnsure sinkOk)

/-! ### Concrete data for the engine witnesses -/

/-- Requested identity used by the engine witnesses: the parse of
`acme/widgets`. -/
def reqW : ParsedRepoUrl :=
  ⟨"acme/widgets".toList, "github.com".toList,
    ["acme".toList, "widgets".toList],
    "https://github.com/acme/widgets.git".toList,
    "github.com/acme/widgets".toList⟩

/-- Origin URL configured in the witness clone. -/
def originW : Str := "https://github.com/acme/widgets.git".toList

/-- Parse of `originW` (with SSH allowed), matching `reqW`'s key. -/
def pW : ParsedRepoUrl :=
  ⟨originW, "github.com".toList, ["acme".toList, "widgets".toList],
    "https://github.com/acme/widgets.git".toList,
    "github.com/acme/widgets".toList⟩

/-- Mismatching SSH origin used by the mismatch witness. -/
def originM : Str := "git@github.com:other/thing.git".toList

/-- Parse of `originM` (SSH allowed), whose key differs from `reqW`'s. -/
def pM : ParsedRepoUrl :=
  ⟨originM, "github.com".toList, ["other".toList, "thing".toList],
    "git@github.com:other/thing.git".toList,
    "github.com/other/thing".toList⟩

/-- Witness clone state: a clean clone of `acme/widgets` on branch `main`
whose remote tip `sha2` fast-forwards from the local head `abc`. -/
def witRepo : RepoState :=
  ⟨true, originW, "main".toList, "abc".toList, false, [],
    [], [("main".toList, "sha2".toList)], [("abc".toList, "sha2".toList)]⟩

/-- Canonical URL shape produced by `buildParsed` for a given protocol,
normalized host and segment list (used to state lemmas about it). -/
def canonicalOf (protocol : Proto) (host : Str) (ss : List Str) : Str :=
  match protocol with
  | .https => "https://".toList ++ host ++ '/' :: joinSep '/' ss ++ ".git".toList
  | .ssh => "git@".toList ++ host ++ ':' :: joinSep '/' ss ++ ".git".toList

/-! ### Data for the canonical-URL round-trip claim -/

/-- Characters over which the canonical-URL round trip is stated: ASCII
letters, digits, `-`, `_` and `.` — the alphabet of real host names and
repository path segments.  It excludes the characters (`:`, `@`, `?`, `#`,
`%`, `/`, `\`, whitespace) that the WHATWG URL parser treats specially. -/
def safeChar (c : Char) : Bool :=
  (97 ≤ c.toNat ∧ c.toNat ≤ 122) ∨ (65 ≤ c.toNat ∧ c.toNat ≤ 90) ∨
  (48 ≤ c.toNat ∧ c.toNat ≤ 57) ∨ c.toNat = 45 ∨ c.toNat = 95 ∨ c.toNat = 46

/-- Raw input of the round-trip counterexample: the host-with-path form
whose host part carries a port. -/
def rawCE : Str := "example.com:8080/acme/widgets".toList

/-- Identity produced by parsing `rawCE`: the port stays inside the host. -/
def iCE : ParsedRepoUrl :=
  ⟨rawCE, "example.com:8080".toList, ["acme".toList, "widgets".toList],
    "https://example.com:8080/acme/widgets.git".toList,
    "example.com:8080/acme/widgets".toList⟩

/-- Identity produced by re-parsing `iCE.canonicalUrl`: the WHATWG URL
parser strips the port from the hostname, changing host and key. -/
def jCE : ParsedRepoUrl :=
  ⟨"https://example.com:8080/acme/widgets.git".toList, "example.com".toList,
    ["acme".toList, "widgets".toList],
    "https://example.com/acme/widgets.git".toList,
    "example.com/acme/widgets".toList⟩

/-! ### Claim theorems -/

/-- Identity returned by the parser for the shorthand input
`acme/widgets`, used by the round-trip witness. -/
def witAmI : ParsedRepoUrl :=
  ⟨"acme/widgets".toList, "github.com".toList,
    ["acme".toList, "widgets".toList],
    "https://github.com/acme/widgets.git".toList,
    "github.com/acme/widgets".toList⟩

/-- C1: for each of the raw inputs `acme/widgets`, `github.com/acme/widgets`,
`https://github.com/acme/widgets`, `https://github.com/acme/widgets.git` and
`https://github.com/acme/widgets/tree/main`, and for every `allowSsh` value,
`parseRepoUrl` succeeds with comparison key `github.com/acme/widgets` and
canonical URL `https://github.com/acme/widgets.git`. -/
theorem parse_canonicalizes_equivalent_forms :
    ∀ b : Bool,
      ∀ r ∈ ["acme/widgets", "github.com/acme/widgets",
             "https://github.com/acme/widgets", "https://github.com/acme/widgets.git",
             "https://github.com/acme/widgets/tree/main"].map String.toList,
        (okOf (parseRepoUrl r b)).map (fun p => (p.key, p.canonicalUrl)) =
          some ("github.com/acme/widgets".toList,
                "https://github.com/acme/widgets.git".toList) := by
  decide

/-- Witness for C1 at `allowSsh = false` and the first listed input. -/
theorem parse_canonicalizes_equivalent_forms_witness :
    (okOf (parseRepoUrl "acme/widgets".toList false)).map
        (fun p => (p.key, p.canonicalUrl)) =
      some ("github.com/acme/widgets".toList,
            "https://github.com/acme/widgets.git".toList) :=
  parse_canonicalizes_equivalent_forms false ("acme/widgets".toList) (by decide)

/-- C2: the empty input, a single-segment input, an invalid `..` segment, a
disallowed `http://` scheme, and an SSH form with `allowSsh = false` all fail
with the `INVALID_URL` (InvalidReference) code, hence return no identity. -/
theorem parse_rejects_invalid_references :
    ∀ b : Bool,
      errCodeOf (parseRepoUrl "".toList b) = some .INVALID_URL ∧
      errCodeOf (parseRepoUrl "acme".toList b) = some .INVALID_URL ∧
      errCodeOf (parseRepoUrl "https://github.com/acme/..".toList b) = some .INVALID_URL ∧
      errCodeOf (parseRepoUrl "http://github.com/acme/widgets".toList b) =
        some .INVALID_URL ∧
      errCodeOf (parseRepoUrl "git@github.com:acme/widgets.git".toList false) =
        some .INVALID_URL := by
  decide

/-- Witness for C2 at `allowSsh = true`. -/
theorem parse_rejects_invalid_references_witness :
    errCodeOf (parseRepoUrl "".toList true) = some .INVALID_URL ∧
    errCodeOf (parseRepoUrl "acme".toList true) = some .INVALID_URL ∧
    errCodeOf (parseRepoUrl "https://github.com/acme/..".toList true) = some .INVALID_URL ∧
    errCodeOf (parseRepoUrl "http://github.com/acme/widgets".toList true) =
      some .INVALID_URL ∧
    errCodeOf (parseRepoUrl "git@github.com:acme/widgets.git".toList false) =
      some .INVALID_URL :=
  parse_rejects_invalid_references true

/-- C3: for every identity produced by a successful parse and every clone
root, a path returned by `buildRepoPath` resolves to a strict descendant of
the resolved root, and any candidate that does not is rejected with the
`PATH_ESCAPE` code. -/
theorem buildRepoPath_descendant_or_path_escape (root : FsPath) (r : Str) (b : Bool)
    (i : ParsedRepoUrl) (hparse : okOf (parseRepoUrl r b) = some i) :
    (∀ out, buildRepoPath root i = .ok out → strictUnder (resolveSegs root) out = true) ∧
    (∀ e, buildRepoPath root i = .error e → e.code = .PATH_ESCAPE) := by
  constructor <;> intro x hx <;>
    · simp only [buildRepoPath] at hx
      split at hx <;> cases hx <;> first | assumption | rfl

/-- Witness for C3: the parsed `acme/widgets` identity under root
`/root/repos` resolves strictly under the root, and the theorem's two
conclusions hold there. -/
theorem buildRepoPath_descendant_or_path_escape_witness :
    (∀ out,
        buildRepoPath ["root".toList, "repos".toList]
            ⟨"acme/widgets".toList, "github.com".toList,
              ["acme".toList, "widgets".toList],
              "https://github.com/acme/widgets.git".toList,
              "github.com/acme/widgets".toList⟩ = .ok out →
          strictUnder (resolveSegs ["root".toList, "repos".toList]) out = true) ∧
    (∀ e,
        buildRepoPath ["root".toList, "repos".toList]
            ⟨"acme/widgets".toList, "github.com".toList,
              ["acme".toList, "widgets".toList],
              "https://github.com/acme/widgets.git".toList,
              "github.com/acme/widgets".toList⟩ = .error e →
          e.code = .PATH_ESCAPE) :=
  buildRepoPath_descendant_or_path_escape ["root".toList, "repos".toList]
    ("acme/widgets".toList) false _ (by decide)

/-- C7: freshness is classified from the ahead/behind counts —
`(0,0) ↦ current`, `(0,>0) ↦ stale`, `(>0,0) ↦ ahead`,
`(>0,>0) ↦ diverged` — and is `unknown` exactly when no comparison ref
resolved. -/
theorem freshness_classification :
    (∀ c, computeFreshness c = .unknown ↔ c = none) ∧
    (∀ a b : Nat, a = 0 → b = 0 → computeFreshness (some (a, b)) = .current) ∧
    (∀ a b : Nat, a = 0 → 0 < b → computeFreshness (some (a, b)) = .stale) ∧
    (∀ a b : Nat, 0 < a → b = 0 → computeFreshness (some (a, b)) = .ahead) ∧
    (∀ a b : Nat, 0 < a → 0 < b → computeFreshness (some (a, b)) = .diverged) := by
  refine ⟨fun c => ?_, ?_, ?_, ?_, ?_⟩
  · cases c with
    | none => simp [computeFreshness]
    | some p =>
      obtain ⟨a, b⟩ := p
      simp only [computeFreshness, classifyAheadBehind]
      split <;> try split <;> try split
      all_goals simp
  all_goals
    intro a b ha hb
    simp only [computeFreshness, classifyAheadBehind]
    split <;> try split <;> try split
    all_goals first | rfl | omega

/-- Witness for C7 at the spec's fabricated counts (0,0)/(0,3)/(2,0)/(2,3)
and at an unresolvable comparison ref. -/
theorem freshness_classification_witness :
    computeFreshness (some (0, 0)) = .current ∧
    computeFreshness (some (0, 3)) = .stale ∧
    computeFreshness (some (2, 0)) = .ahead ∧
    computeFreshness (some (2, 3)) = .diverged ∧
    computeFreshness none = .unknown :=
  ⟨freshness_classification.2.1 0 0 rfl rfl,
   freshness_classification.2.2.1 0 3 rfl (by omega),
   freshness_classification.2.2.2.1 2 0 (by omega) rfl,
   freshness_classification.2.2.2.2 2 3 (by omega) (by omega),
   (freshness_classification.1 none).mpr rfl⟩

/-- C9: every invocation of the tool attempts exactly one telemetry write,
a failing sink persists nothing but is caught and discarded, and the tool's
outcome (returned value or thrown error) is identical whether the telemetry
write succeeds or fails. -/
theorem telemetry_once_and_isolated :
    ∀ (opResult : Except RepoPluginError RepoEnsureResult) (sinkOk : Bool),
      (executeTool opResult sinkOk).2.attempted = 1 ∧
      (executeTool opResult sinkOk).2.persisted = (if sinkOk then 1 else 0) ∧
      (executeTool opResult sinkOk).1 = (executeTool opResult true).1 := by
  intro opResult sinkOk
  cases opResult <;> exact ⟨rfl, rfl, rfl⟩

/-- Witness for C9 at a concrete failing operation and a failing sink. -/
theorem telemetry_once_and_isolated_witness :
    (executeTool (.error (mkErr .DIRTY_WORKTREE "dirty")) false).2.attempted = 1 ∧
    (executeTool (.error (mkErr .DIRTY_WORKTREE "dirty")) false).2.persisted =
      (if false then 1 else 0) ∧
    (executeTool (.error (mkErr .DIRTY_WORKTREE "dirty")) false).1 =
      (executeTool (.error (mkErr .DIRTY_WORKTREE "dirty")) true).1 :=
  telemetry_once_and_isolated (.error (mkErr .DIRTY_WORKTREE "dirty")) false



/-- Success of `checkoutIfRequested` appends either nothing or one
`checked_out_<ref>` entry to the action log. -/
theorem checkoutIfRequested_ok_actions {w w2 : World} {ref : Option Str}
    {acts acts2 : List Str}
    (h : checkoutIfRequested w ref acts = (w2, .ok acts2)) :
    acts2 = acts ∨ ∃ r, ref = some r ∧ acts2 = acts ++ [actCheckedOut ++ r] := by
  unfold checkoutIfRequested checkoutRef at h
  repeat' split at h
  all_goals simp_all

/-- A failing `checkoutIfRequested` fails with the git-binary error code. -/
theorem checkoutIfRequested_error_code {w w2 : World} {ref : Option Str}
    {acts : List Str} {e : RepoPluginError}
    (h : checkoutIfRequested w ref acts = (w2, .error e)) :
    e.code = .VCS_OPERATION_FAILED := by
  cases ref with
  | none => simp [checkoutIfRequested] at h
  | some r =>
    rcases hl : lookupStr r w.repo.refs with _ | sha
    · simp [checkoutIfRequested, checkoutRef, hl, mkErr] at h
      obtain ⟨-, h2⟩ := h
      subst h2
      rfl
    · simp [checkoutIfRequested, checkoutRef, hl] at h

/-- A failing `runFastForward` fails with the dirty-worktree code or a
git-binary failure, never any other code. -/
theorem runFastForward_error_code {w w2 : World} {acts : List Str} {e : RepoPluginError}
    (h : runFastForward w acts = (w2, .error e)) :
    e.code = .DIRTY_WORKTREE ∨ e.code = .VCS_OPERATION_FAILED := by
  by_cases hd : w.repo.dirty = true
  · simp [runFastForward, hd] at h
    obtain ⟨-, h2⟩ := h
    subst h2
    left; rfl
  · by_cases hh : w.repo.currentRef = headSentinel
    · simp [runFastForward, hd, hh] at h
    · rcases hl : lookupStr w.repo.currentRef w.repo.trackingTips with _ | tip
      · simp [runFastForward, pullFfOnlyForBranch, hd, hh, hl, mkErr] at h
        obtain ⟨-, h2⟩ := h
        subst h2
        right; rfl
      · by_cases hsha : w.repo.headSha = tip
        · simp [runFastForward, pullFfOnlyForBranch, hd, hh, hl, hsha] at h
        · by_cases hanc : (w.repo.headSha, tip) ∈ w.repo.ancestry
          · simp [runFastForward, pullFfOnlyForBranch, hd, hh, hl, hsha, hanc] at h
          · simp [runFastForward, pullFfOnlyForBranch, hd, hh, hl, hsha, hanc, mkErr] at h
            obtain ⟨-, h2⟩ := h
            subst h2
            right; rfl

/-- A failing `runResetClean` fails with the detached-head code or a
git-binary failure, never any other code. -/
theorem runResetClean_error_code {w w2 : World} {acts : List Str} {e : RepoPluginError}
    (h : runResetClean w acts = (w2, .error e)) :
    e.code = .DETACHED_HEAD ∨ e.code = .VCS_OPERATION_FAILED := by
  by_cases hh : w.repo.currentRef = headSentinel
  · simp [runResetClean, hh, mkErr] at h
    obtain ⟨-, h2⟩ := h
    subst h2
    left; rfl
  · rcases hl : lookupStr w.repo.currentRef w.repo.trackingTips with _ | tip
    · simp [runResetClean, hardResetToOriginBranch, hh, hl, mkErr] at h
      obtain ⟨-, h2⟩ := h
      subst h2
      right; rfl
    · simp [runResetClean, hardResetToOriginBranch, hh, hl] at h

/-- C4: on an existing matching clone, `fetch-only` yields status `fetched`
with only fetch/checkout actions logged (no fast-forward or reset action),
and under `ff-only`/`reset-clean` the status is `already-current` exactly
when the head SHA after the policy equals the one recorded before the
fetch, `updated` exactly when they differ. -/
theorem update_status_consistency (w : World) (req : ParsedRepoUrl) (mode : UpdateMode)
    (ref : Option Str) (w' : World) (st : RepoEnsureStatus) (acts : List Str)
    (hok : updateExistingRepo w req mode ref [] = (w', .ok (st, acts))) :
    (mode = .fetchOnly →
      st = .fetched ∧
      (acts = [actFetchedOrigin] ∨
        ∃ rr, acts = [actFetchedOrigin, actCheckedOut ++ rr])) ∧
    (mode ≠ .fetchOnly →
      (st = .alreadyCurrent ↔ w.repo.headSha = w'.repo.headSha) ∧
      (st = .updated ↔ w.repo.headSha ≠ w'.repo.headSha)) := by
  rcases hens : ensureExistingCloneMatchesRemote w req with e | u
  · simp [updateExistingRepo, hens] at hok
  · rcases hck : checkoutIfRequested (fetchOrigin w) ref [actFetchedOrigin] with ⟨w2, r2⟩
    rcases r2 with e2 | acts2
    · simp [updateExistingRepo, hens, hck] at hok
    · cases mode
      case ffOnly =>
        rcases hff : runFastForward w2 acts2 with ⟨w3, r3⟩
        rcases r3 with e3 | acts3
        · simp [updateExistingRepo, hens, hck, hff] at hok
        · simp [updateExistingRepo, hens, hck, hff] at hok
          obtain ⟨hw, hst, -⟩ := hok
          subst hw
          refine ⟨fun hmode => (nomatch hmode), fun _ => ?_⟩
          by_cases hsha : w.repo.headSha = w3.repo.headSha
          · simp [hsha] at hst
            subst hst
            simp [hsha]
          · simp [hsha] at hst
            subst hst
            simp [hsha]
      case fetchOnly =>
        simp [updateExistingRepo, hens, hck] at hok
        obtain ⟨hw, hst, hacts⟩ := hok
        refine ⟨fun _ => ⟨hst.symm, ?_⟩, fun hne => absurd rfl hne⟩
        rcases checkoutIfRequested_ok_actions hck with h1 | ⟨rr, -, h2⟩
        · exact .inl (by rw [← hacts, h1])
        · exact .inr ⟨rr, by rw [← hacts, h2]; rfl⟩
      case resetClean =>
        rcases hrc : runResetClean w2 acts2 with ⟨w3, r3⟩
        rcases r3 with e3 | acts3
        · simp [updateExistingRepo, hens, hck, hrc] at hok
        · simp [updateExistingRepo, hens, hck, hrc] at hok
          obtain ⟨hw, hst, -⟩ := hok
          subst hw
          refine ⟨fun hmode => (nomatch hmode), fun _ => ?_⟩
          by_cases hsha : w.repo.headSha = w3.repo.headSha
          · simp [hsha] at hst
            subst hst
            simp [hsha]
          · simp [hsha] at hst
            subst hst
            simp [hsha]

/-- C5: on an existing matching dirty clone (no checkout ref), `ff-only`
fails with `DIRTY_WORKTREE` having performed only the fetch (no pull and no
reset call is attempted), while `reset-clean` on the same dirty tree
succeeds, discarding the local changes and hard-resetting the current
branch's head to the fetched remote branch tip. -/
theorem dirty_worktree_policies (w : World) (req p : ParsedRepoUrl) (tip : Str)
    (hrepo : w.repo.isRepo = true)
    (horigin : parseRepoUrl w.repo.originUrl true = .ok p)
    (hkey : p.key = req.key)
    (hdirty : w.repo.dirty = true)
    (hcalls : w.calls = [])
    (hbranch : w.repo.currentRef ≠ headSentinel)
    (htip : lookupStr w.repo.currentRef w.repo.remoteTips = some tip) :
    (errCodeOf (updateExistingRepo w req .ffOnly none []).2 = some .DIRTY_WORKTREE ∧
      (updateExistingRepo w req .ffOnly none []).1.calls = [.fetch]) ∧
    (∃ st acts, (updateExistingRepo w req .resetClean none []).2 = .ok (st, acts) ∧
      (updateExistingRepo w req .resetClean none []).1.repo.dirty = false ∧
      (updateExistingRepo w req .resetClean none []).1.repo.headSha = tip) := by
  have hens : ensureExistingCloneMatchesRemote w req = .ok () := by
    simp [ensureExistingCloneMatchesRemote, hrepo, horigin, hkey]
  refine ⟨?_, ?_⟩
  · simp [updateExistingRepo, hens, checkoutIfRequested, runFastForward, fetchOrigin,
      hdirty, hcalls, errCodeOf]
  · simp [updateExistingRepo, hens, checkoutIfRequested, runResetClean, fetchOrigin,
      hardResetToOriginBranch, hbranch, htip, errCodeOf]

/-- C6: with an existing git directory, the engine re-parses the clone's
configured origin URL with SSH unconditionally allowed and fails with
`REPO_URL_MISMATCH` exactly when that origin's comparison key differs from
the requested identity's; on a mismatch it fails before any fetch or other
adapter call mutates the clone (the world is returned unchanged). -/
theorem origin_mismatch_detection (w : World) (req p : ParsedRepoUrl) (mode : UpdateMode)
    (ref : Option Str)
    (hrepo : w.repo.isRepo = true)
    (horigin : parseRepoUrl w.repo.originUrl true = .ok p) :
    (errCodeOf (updateExistingRepo w req mode ref []).2 = some .REPO_URL_MISMATCH ↔
      p.key ≠ req.key) ∧
    (p.key ≠ req.key → (updateExistingRepo w req mode ref []).1 = w) := by
  by_cases hk : p.key = req.key
  · have hens : ensureExistingCloneMatchesRemote w req = .ok () := by
      simp [ensureExistingCloneMatchesRemote, hrepo, horigin, hk]
    refine ⟨?_, fun hne => absurd hk hne⟩
    simp only [hk, ne_eq, not_true_eq_false, iff_false]
    intro hbad
    rcases hck : checkoutIfRequested (fetchOrigin w) ref [actFetchedOrigin] with ⟨w2, r2⟩
    rcases r2 with e2 | acts2
    · have hc := checkoutIfRequested_error_code hck
      simp [updateExistingRepo, hens, hck, errCodeOf, hc] at hbad
    · cases mode with
      | fetchOnly => simp [updateExistingRepo, hens, hck, errCodeOf] at hbad
      | ffOnly =>
        rcases hff : runFastForward w2 acts2 with ⟨w3, r3⟩
        rcases r3 with e3 | acts3
        · have hc := runFastForward_error_code hff
          simp [updateExistingRepo, hens, hck, hff, errCodeOf] at hbad
          rcases hc with hc | hc <;> simp [hc] at hbad
        · simp [updateExistingRepo, hens, hck, hff, errCodeOf] at hbad
      | resetClean =>
        rcases hrc : runResetClean w2 acts2 with ⟨w3, r3⟩
        rcases r3 with e3 | acts3
        · have hc := runResetClean_error_code hrc
          simp [updateExistingRepo, hens, hck, hrc, errCodeOf] at hbad
          rcases hc with hc | hc <;> simp [hc] at hbad
        · simp [updateExistingRepo, hens, hck, hrc, errCodeOf] at hbad
  · have hens : ensureExistingCloneMatchesRemote w req =
        .error ⟨.REPO_URL_MISMATCH,
          "Existing clone origin does not match requested repository",
          some "requested/existing canonical URLs differ"⟩ := by
      simp [ensureExistingCloneMatchesRemote, hrepo, horigin, hk]
    refine ⟨?_, fun _ => ?_⟩
    · simp [updateExistingRepo, hens, errCodeOf, hk]
    · simp [updateExistingRepo, hens]

/-- C8: on an existing matching clone in detached-HEAD state (clean tree, no
checkout ref), `ff-only` succeeds, logging the `detached_head_no_pull` no-op
action and attempting no pull (only the fetch call runs), while
`reset-clean` fails with `DETACHED_HEAD`. -/
theorem detached_head_policies (w : World) (req p : ParsedRepoUrl)
    (hrepo : w.repo.isRepo = true)
    (horigin : parseRepoUrl w.repo.originUrl true = .ok p)
    (hkey : p.key = req.key)
    (hdetached : w.repo.currentRef = headSentinel)
    (hclean : w.repo.dirty = false)
    (hcalls : w.calls = []) :
    ((updateExistingRepo w req .ffOnly none []).2 =
        .ok (.alreadyCurrent, [actFetchedOrigin, actDetachedNoPull]) ∧
      (updateExistingRepo w req .ffOnly none []).1.calls = [.fetch]) ∧
    errCodeOf (updateExistingRepo w req .resetClean none []).2 = some .DETACHED_HEAD := by
  have hens : ensureExistingCloneMatchesRemote w req = .ok () := by
    simp [ensureExistingCloneMatchesRemote, hrepo, horigin, hkey]
  refine ⟨⟨?_, ?_⟩, ?_⟩
  · simp [updateExistingRepo, hens, checkoutIfRequested, runFastForward, fetchOrigin,
      hdetached, hclean]
  · simp [updateExistingRepo, hens, checkoutIfRequested, runFastForward, fetchOrigin,
      hdetached, hclean, hcalls]
  · simp [updateExistingRepo, hens, checkoutIfRequested, runResetClean, fetchOrigin,
      hdetached, errCodeOf, mkErr]

/-- Witness for C4 at a concrete fetch-only invocation on the witness
clone. -/
theorem update_status_consistency_witness :
    updateExistingRepo ⟨witRepo, []⟩ reqW .fetchOnly none [] =
      (⟨{ witRepo with trackingTips := witRepo.remoteTips }, [.fetch]⟩,
        .ok (.fetched, [actFetchedOrigin])) ∧
    (RepoEnsureStatus.fetched = RepoEnsureStatus.fetched ∧
      ([actFetchedOrigin] = [actFetchedOrigin] ∨
        ∃ rr, [actFetchedOrigin] = [actFetchedOrigin, actCheckedOut ++ rr])) :=
  ⟨by decide,
    (update_status_consistency ⟨witRepo, []⟩ reqW .fetchOnly none
        ⟨{ witRepo with trackingTips := witRepo.remoteTips }, [.fetch]⟩ .fetched
        [actFetchedOrigin] (by decide)).1 rfl⟩

/-- Witness for C5 on the witness clone with a dirtied working tree. -/
theorem dirty_worktree_policies_witness :
    (errCodeOf (updateExistingRepo ⟨{ witRepo with dirty := true }, []⟩ reqW
          .ffOnly none []).2 = some .DIRTY_WORKTREE ∧
      (updateExistingRepo ⟨{ witRepo with dirty := true }, []⟩ reqW
          .ffOnly none []).1.calls = [.fetch]) ∧
    (∃ st acts,
      (updateExistingRepo ⟨{ witRepo with dirty := true }, []⟩ reqW
          .resetClean none []).2 = .ok (st, acts) ∧
      (updateExistingRepo ⟨{ witRepo with dirty := true }, []⟩ reqW
          .resetClean none []).1.repo.dirty = false ∧
      (updateExistingRepo ⟨{ witRepo with dirty := true }, []⟩ reqW
          .resetClean none []).1.repo.headSha = "sha2".toList) :=
  dirty_worktree_policies ⟨{ witRepo with dirty := true }, []⟩ reqW pW ("sha2".toList)
    (by decide) (by decide) (by decide) (by decide) rfl (by decide) (by decide)

/-- Witness for C6 on a clone whose origin is the mismatching SSH URL
`git@github.com:other/thing.git`. -/
theorem origin_mismatch_detection_witness :
    (errCodeOf (updateExistingRepo ⟨{ witRepo with originUrl := originM }, []⟩ reqW
          .ffOnly none []).2 = some .REPO_URL_MISMATCH ↔ pM.key ≠ reqW.key) ∧
    (pM.key ≠ reqW.key →
      (updateExistingRepo ⟨{ witRepo with originUrl := originM }, []⟩ reqW
          .ffOnly none []).1 = ⟨{ witRepo with originUrl := originM }, []⟩) :=
  origin_mismatch_detection ⟨{ witRepo with originUrl := originM }, []⟩ reqW pM
    .ffOnly none (by decide) (by decide)

/-- Witness for C8 on the witness clone in detached-HEAD state. -/
theorem detached_head_policies_witness :
    ((updateExistingRepo ⟨{ witRepo with currentRef := headSentinel }, []⟩ reqW
          .ffOnly none []).2 =
        .ok (.alreadyCurrent, [actFetchedOrigin, actDetachedNoPull]) ∧
      (updateExistingRepo ⟨{ witRepo with currentRef := headSentinel }, []⟩ reqW
          .ffOnly none []).1.calls = [.fetch]) ∧
    errCodeOf (updateExistingRepo ⟨{ witRepo with currentRef := headSentinel }, []⟩ reqW
        .resetClean none []).2 = some .DETACHED_HEAD :=
  detached_head_policies ⟨{ witRepo with currentRef := headSentinel }, []⟩ reqW pW
    (by decide) (by decide) (by decide) rfl (by decide) rfl

/-- C10 counterexample: `parseRepoUrl` accepts `example.com:8080/acme/widgets`
(the colon satisfies the host heuristic) with host `example.com:8080`, but
re-parsing its canonical URL `https://example.com:8080/acme/widgets.git`
goes through the URL parser, which strips the port from the hostname — the
round trip changes both `host` and `key`, refuting the claim as stated. -/
theorem canonical_roundtrip_counterexample :
    okOf (parseRepoUrl rawCE false) = some iCE ∧
    okOf (parseRepoUrl iCE.canonicalUrl true) = some jCE ∧
    jCE.pathSegments = iCE.pathSegments ∧
    jCE.host ≠ iCE.host ∧ jCE.key ≠ iCE.key := by
  decide

/-- Injectivity of `Char.toNat`. -/
theorem char_toNat_inj {c d : Char} (h : c.toNat = d.toNat) : c = d :=
  Char.eq_of_val_eq (UInt32.ext h)

/-- `Char.ofNat` of a small code point evaluates back to it. -/
theorem toNat_ofNat_small {n : Nat} (h : n < 256) : (Char.ofNat n).toNat = n := by
  have hv : n.isValidChar := Or.inl (by omega)
  simp [Char.ofNat, hv, Char.ofNatAux, Char.toNat, UInt32.toNat, BitVec.toNat_ofNatLt]

/-- Code point of `lowChar`. -/
theorem toNat_lowChar (c : Char) :
    (lowChar c).toNat = if 65 ≤ c.toNat ∧ c.toNat ≤ 90 then c.toNat + 32 else c.toNat := by
  unfold lowChar
  split
  · rename_i h
    exact toNat_ofNat_small (by omega)
  · rfl

/-- `lowChar` never produces an ASCII uppercase letter. -/
theorem lowChar_not_upper (c : Char) :
    ¬ (65 ≤ (lowChar c).toNat ∧ (lowChar c).toNat ≤ 90) := by
  rw [toNat_lowChar]
  split <;> omega

/-- `lowChar` fixes characters outside the ASCII uppercase range. -/
theorem lowChar_eq_self {c : Char} (h : ¬ (65 ≤ c.toNat ∧ c.toNat ≤ 90)) :
    lowChar c = c := by
  unfold lowChar
  exact if_neg h

/-- `lowChar` is idempotent. -/
theorem lowChar_idem (c : Char) : lowChar (lowChar c) = lowChar c :=
  lowChar_eq_self (lowChar_not_upper c)

/-- `lowerStr` is idempotent. -/
theorem lowerStr_idem (s : Str) : lowerStr (lowerStr s) = lowerStr s := by
  unfold lowerStr
  rw [List.map_map]
  exact List.map_congr_left fun c _ => lowChar_idem c

/-- A safe character is not one of the URL-special characters, not
whitespace and not a line terminator. -/
theorem safeChar_facts {c : Char} (h : safeChar c = true) :
    c ≠ ':' ∧ c ≠ '/' ∧ c ≠ '@' ∧ c ≠ '?' ∧ c ≠ '#' ∧ c ≠ '%' ∧
    jsWs c = false ∧ isLineTerm c = false ∧ c ≠ '\\' := by
  simp only [safeChar, decide_eq_true_eq] at h
  refine ⟨?_, ?_, ?_, ?_, ?_, ?_, ?_, ?_, ?_⟩
  · rintro rfl; revert h; decide
  · rintro rfl; revert h; decide
  · rintro rfl; revert h; decide
  · rintro rfl; revert h; decide
  · rintro rfl; revert h; decide
  · rintro rfl; revert h; decide
  · simp only [jsWs, decide_eq_true_eq]
    simp only [decide_eq_false_iff_not]
    omega
  · simp only [isLineTerm, decide_eq_false_iff_not]
    omega
  · rintro rfl; revert h; decide

/-- `takeWhile` over a satisfying block stops exactly at the first failing
character. -/
theorem takeWhile_append_stop (p : Char → Bool) (xs : Str) (y : Char) (ys : Str)
    (hxs : ∀ c ∈ xs, p c = true) (hy : p y = false) :
    (xs ++ y :: ys).takeWhile p = xs := by
  induction xs with
  | nil => simp [List.takeWhile_cons, hy]
  | cons a l ih =>
    have ha : p a = true := hxs a (by simp)
    simp only [List.cons_append, List.takeWhile_cons, ha, if_true]
    rw [ih fun c hc => hxs c (by simp [hc])]

/-- `takeWhile` keeps a list all of whose characters satisfy the predicate. -/
theorem takeWhile_all (p : Char → Bool) (xs : Str) (hxs : ∀ c ∈ xs, p c = true) :
    xs.takeWhile p = xs := by
  induction xs with
  | nil => rfl
  | cons a l ih =>
    have ha : p a = true := hxs a (by simp)
    simp only [List.takeWhile_cons, ha, if_true]
    rw [ih fun c hc => hxs c (by simp [hc])]

/-- `dropWhile` fixes a list whose head does not satisfy the predicate. -/
theorem dropWhile_eq_self_head (p : Char → Bool) (s : Str)
    (h : ∀ c, s.head? = some c → p c = false) : s.dropWhile p = s := by
  cases s with
  | nil => rfl
  | cons a l => simp [List.dropWhile_cons, h a rfl]

/-- Both-ends `dropWhile` fixes a string whose first and last characters
fail the predicate. -/
theorem trim_both_eq_self (p : Char → Bool) (s : Str)
    (h1 : ∀ c, s.head? = some c → p c = false)
    (h2 : ∀ c, s.getLast? = some c → p c = false) :
    ((s.dropWhile p).reverse.dropWhile p).reverse = s := by
  rw [dropWhile_eq_self_head p s h1]
  rw [dropWhile_eq_self_head p s.reverse (by rw [List.head?_reverse]; exact h2)]
  exact List.reverse_reverse s

/-- `strTrim` fixes a string whose first and last characters are not
whitespace. -/
theorem strTrim_eq_self {s : Str}
    (h1 : ∀ c, s.head? = some c → jsWs c = false)
    (h2 : ∀ c, s.getLast? = some c → jsWs c = false) : strTrim s = s :=
  trim_both_eq_self jsWs s h1 h2

/-- `stripSlashes` fixes a string that neither starts nor ends with a
slash. -/
theorem stripSlashes_eq_self {s : Str}
    (h1 : ∀ c, s.head? = some c → c ≠ '/')
    (h2 : ∀ c, s.getLast? = some c → c ≠ '/') : stripSlashes s = s :=
  trim_both_eq_self _ s
    (fun c hc => decide_eq_false (h1 c hc))
    (fun c hc => decide_eq_false (h2 c hc))

/-- `splitChar` never returns the empty list of blocks. -/
theorem splitChar_ne_nil (sep : Char) (s : Str) : splitChar sep s ≠ [] := by
  cases s with
  | nil => simp [splitChar]
  | cons a l =>
    cases h : splitChar sep l with
    | nil => simp [splitChar, h]
    | cons b bs =>
      simp only [splitChar, h]
      split <;> simp

/-- Splitting a separator-free string yields the single-block list. -/
theorem splitChar_no_sep {sep : Char} {s : Str} (h : ∀ c ∈ s, c ≠ sep) :
    splitChar sep s = [s] := by
  induction s with
  | nil => rfl
  | cons a l ih =>
    have ha : a ≠ sep := h a (by simp)
    unfold splitChar
    rw [ih fun c hc => h c (by simp [hc])]
    simp [ha]

/-- Splitting a string that starts with a separator-free block followed by
the separator splits off that block. -/
theorem splitChar_append_sep {sep : Char} {s t : Str} (h : ∀ c ∈ s, c ≠ sep) :
    splitChar sep (s ++ sep :: t) = s :: splitChar sep t := by
  induction s with
  | nil =>
    show splitChar sep (sep :: t) = [] :: splitChar sep t
    cases hsp : splitChar sep t with
    | nil => exact absurd hsp (splitChar_ne_nil sep t)
    | cons b bs => simp [splitChar, hsp]
  | cons a l ih =>
    have ha : a ≠ sep := h a (by simp)
    have ih' := ih fun c hc => h c (by simp [hc])
    show splitChar sep (a :: (l ++ sep :: t)) = (a :: l) :: splitChar sep t
    simp [splitChar, ih', ha]

/-- Splitting the `joinSep` of separator-free non-empty blocks recovers the
blocks. -/
theorem splitChar_joinSep {sep : Char} {ss : List Str} (hne : ss ≠ [])
    (h : ∀ s ∈ ss, ∀ c ∈ s, c ≠ sep) :
    splitChar sep (joinSep sep ss) = ss := by
  induction ss with
  | nil => exact absurd rfl hne
  | cons s rest ih =>
    cases rest with
    | nil => exact splitChar_no_sep (h s (by simp))
    | cons s' rest' =>
      show splitChar sep (s ++ sep :: joinSep sep (s' :: rest')) = _
      rw [splitChar_append_sep (h s (by simp))]
      rw [ih (by simp) fun x hx c hc => h x (by simp [hx]) c hc]

/-- Appending to the `joinSep` of a non-empty block list appends to its last
block. -/
theorem joinSep_setLast_append (sep : Char) (t : Str) :
    ∀ ss : List Str, ss ≠ [] →
      joinSep sep (setLast (· ++ t) ss) = joinSep sep ss ++ t := by
  intro ss
  induction ss with
  | nil => intro h; exact absurd rfl h
  | cons s rest ih =>
    intro _
    cases rest with
    | nil => rfl
    | cons s' rest' =>
      show joinSep sep (s :: setLast (· ++ t) (s' :: rest')) = (s ++ sep :: joinSep sep (s' :: rest')) ++ t
      have hne : s' :: rest' ≠ [] := by simp
      cases hset : setLast (· ++ t) (s' :: rest') with
      | nil => exact absurd hset (by cases rest' <;> simp [setLast])
      | cons u us =>
        show s ++ sep :: joinSep sep (u :: us) = (s ++ sep :: joinSep sep (s' :: rest')) ++ t
        rw [← hset, ih hne]
        simp

/-- `setLast` composes. -/
theorem setLast_comp (f g : Str → Str) :
    ∀ ss : List Str, setLast f (setLast g ss) = setLast (fun s => f (g s)) ss := by
  intro ss
  induction ss with
  | nil => rfl
  | cons s rest ih =>
    cases rest with
    | nil => rfl
    | cons s' rest' =>
      have hstep : setLast g (s :: s' :: rest') = s :: setLast g (s' :: rest') := rfl
      rw [hstep]
      cases hset : setLast g (s' :: rest') with
      | nil => exact absurd hset (by cases rest' <;> simp [setLast])
      | cons u us =>
        show s :: setLast f (u :: us) = s :: setLast (fun s => f (g s)) (s' :: rest')
        rw [← hset, ih]

/-- `setLast` with a pointwise-identity function is the identity. -/
theorem setLast_id (f : Str → Str) (hf : ∀ s, f s = s) :
    ∀ ss : List Str, setLast f ss = ss := by
  intro ss
  induction ss with
  | nil => rfl
  | cons s rest ih =>
    cases rest with
    | nil => show [f s] = [s]; rw [hf]
    | cons s' rest' =>
      show s :: setLast f (s' :: rest') = s :: s' :: rest'
      rw [ih]

/-- Membership in `setLast`: every element is an original element or the
image of one. -/
theorem mem_setLast {f : Str → Str} {ss : List Str} {x : Str}
    (hx : x ∈ setLast f ss) : x ∈ ss ∨ ∃ s ∈ ss, x = f s := by
  induction ss with
  | nil => simp [setLast] at hx
  | cons s rest ih =>
    cases rest with
    | nil =>
      simp only [setLast, List.mem_singleton] at hx
      exact .inr ⟨s, by simp, hx⟩
    | cons s' rest' =>
      rcases List.mem_cons.mp hx with h | h
      · exact .inl (by simp [h])
      · rcases ih h with h2 | ⟨u, hu, hux⟩
        · exact .inl (by simp [h2])
        · exact .inr ⟨u, by simp [hu], hux⟩

/-- Dropping the `.git` suffix undoes appending it. -/
theorem dropGit_append (s : Str) : dropGitSuffix (s ++ ".git".toList) = s := by
  unfold dropGitSuffix
  have hlen : (s ++ ".git".toList).length = s.length + 4 := by simp
  have hdrop : (s ++ ".git".toList).drop ((s ++ ".git".toList).length - 4) = ".git".toList := by
    rw [hlen]
    have : s.length + 4 - 4 = s.length := by omega
    rw [this]
    exact List.drop_left s _
  rw [hdrop]
  have : lowerStr ".git".toList = ".git".toList := by decide
  rw [this, if_pos rfl, hlen]
  have : s.length + 4 - 4 = s.length := by omega
  rw [this]
  exact List.take_left s _

/-- `processDots` is the identity on a list without dot segments. -/
theorem processDots_id {l : List Str}
    (h : ∀ s ∈ l, isDoubleDotSeg s = false ∧ isSingleDotSeg s = false) :
    ∀ acc, processDots acc l = acc ++ l := by
  induction l with
  | nil => intro acc; simp [processDots]
  | cons s rest ih =>
    intro acc
    have hs := h s (by simp)
    unfold processDots
    rw [hs.1, hs.2]
    simp only [if_false, Bool.false_eq_true]
    rw [ih fun x hx => h x (by simp [hx])]
    simp

/-- A character whose `lowChar` image is outside the lowercase range is
fixed by `lowChar`. -/
theorem lowChar_fix_preimage {c d : Char} (hd : ¬ (97 ≤ d.toNat ∧ d.toNat ≤ 122))
    (h : lowChar c = d) : c = d := by
  have h2 := congrArg Char.toNat h
  rw [toNat_lowChar] at h2
  split at h2
  · omega
  · exact char_toNat_inj h2

/-- A safe, non-`.`/`..` segment is not a WHATWG dot segment. -/
theorem seg_not_dotlike {s : Str} (h1 : s ≠ ['.']) (h2 : s ≠ ['.', '.'])
    (hs : ∀ c ∈ s, safeChar c = true) :
    isDoubleDotSeg s = false ∧ isSingleDotSeg s = false := by
  have hnp : ∀ t : Str, '%' ∈ t → lowerStr s ≠ t := by
    intro t hmem heq
    have hm : '%' ∈ lowerStr s := heq ▸ hmem
    rcases List.mem_map.mp hm with ⟨c, hc, hlc⟩
    have hcp : c = '%' := lowChar_fix_preimage (by decide) hlc
    subst hcp
    exact absurd (hs _ hc) (by decide)
  have ha := hnp (".%2e".toList) (by decide)
  have hb := hnp ("%2e.".toList) (by decide)
  have hc := hnp ("%2e%2e".toList) (by decide)
  have hd := hnp ("%2e".toList) (by decide)
  constructor
  · exact decide_eq_false (by rintro (h | h | h | h); exacts [h2 h, ha h, hb h, hc h])
  · exact decide_eq_false (by rintro (h | h); exacts [h1 h, hd h])

/-- A segment ending in `.git` is not a WHATWG dot segment. -/
theorem appended_not_dotlike (s : Str) :
    isDoubleDotSeg (s ++ ".git".toList) = false ∧
    isSingleDotSeg (s ++ ".git".toList) = false := by
  have ht : 't' ∈ s ++ ".git".toList := List.mem_append.mpr (.inr (by decide))
  have htl : 't' ∈ lowerStr (s ++ ".git".toList) :=
    List.mem_map.mpr ⟨'t', ht, by decide⟩
  have hne : ∀ t : Str, 't' ∉ t → lowerStr (s ++ ".git".toList) ≠ t :=
    fun t hnt heq => hnt (heq ▸ htl)
  have hne2 : ∀ t : Str, 't' ∉ t → s ++ ".git".toList ≠ t :=
    fun t hnt heq => hnt (heq ▸ ht)
  have ha := hne (".%2e".toList) (by decide)
  have hb := hne ("%2e.".toList) (by decide)
  have hc := hne ("%2e%2e".toList) (by decide)
  have hd := hne ("%2e".toList) (by decide)
  have he := hne2 ['.'] (by decide)
  have hf := hne2 ['.', '.'] (by decide)
  constructor
  · exact decide_eq_false (by rintro (h | h | h | h); exacts [hf h, ha h, hb h, hc h])
  · exact decide_eq_false (by rintro (h | h); exacts [he h, hd h])

/-- Head of a `joinSep` starting with a non-empty block. -/
theorem joinSep_head (sep : Char) (s : Str) (rest : List Str) (hs : s ≠ []) :
    (joinSep sep (s :: rest)).head? = s.head? := by
  cases rest with
  | nil => rfl
  | cons s' rest' =>
    show (s ++ sep :: joinSep sep (s' :: rest')).head? = s.head?
    exact List.head?_append_of_ne_nil _ hs

/-- `setLast` of a non-empty list is non-empty. -/
theorem setLast_ne_nil {f : Str → Str} {ss : List Str} (h : ss ≠ []) :
    setLast f ss ≠ [] := by
  cases ss with
  | nil => exact absurd rfl h
  | cons s rest => cases rest <;> simp [setLast]

/-- The split/filter stage of `splitPathSegments` recovers the
`.git`-suffixed blocks from their joined form. -/
theorem splitChar_filter_joined (ss : List Str) (hne : ss ≠ [])
    (hsne : ∀ s ∈ ss, s ≠ [])
    (hsc : ∀ s ∈ ss, ∀ c ∈ s, safeChar c = true) :
    (splitChar '/' (joinSep '/' ss ++ ".git".toList)).filter (· ≠ []) =
      setLast (· ++ ".git".toList) ss := by
  have hjoin : joinSep '/' ss ++ ".git".toList =
      joinSep '/' (setLast (· ++ ".git".toList) ss) :=
    (joinSep_setLast_append '/' (".git".toList) ss hne).symm
  have hmem : ∀ x ∈ setLast (· ++ ".git".toList) ss,
      x ≠ [] ∧ ∀ c ∈ x, c ≠ '/' := by
    intro x hx
    rcases mem_setLast hx with h | ⟨s, hs, rfl⟩
    · exact ⟨hsne x h, fun c hc => (safeChar_facts (hsc x h c hc)).2.1⟩
    · refine ⟨by simp, fun c hc => ?_⟩
      rcases List.mem_append.mp hc with h2 | h2
      · exact (safeChar_facts (hsc s hs c h2)).2.1
      · have hG : (".git".toList : Str) = ['.', 'g', 'i', 't'] := rfl
        rw [hG] at h2
        simp only [List.mem_cons, List.not_mem_nil, or_false] at h2
        rcases h2 with rfl | rfl | rfl | rfl <;> decide
  rw [hjoin]
  rw [splitChar_joinSep (setLast_ne_nil hne) fun s hs c hc => (hmem s hs).2 c hc]
  exact List.filter_eq_self.mpr fun a ha => decide_eq_true (hmem a ha).1

/-- `splitPathSegments` recovers the segments from their joined,
`.git`-suffixed form. -/
theorem splitPathSegments_joined (ss : List Str) (hne : ss ≠ [])
    (hsne : ∀ s ∈ ss, s ≠ [])
    (hsc : ∀ s ∈ ss, ∀ c ∈ s, safeChar c = true) :
    splitPathSegments (joinSep '/' ss ++ ".git".toList) = ss := by
  obtain ⟨s0, rest, rfl⟩ : ∃ s0 rest, ss = s0 :: rest := by
    cases ss with
    | nil => exact absurd rfl hne
    | cons a b => exact ⟨a, b, rfl⟩
  have hs0 := hsne s0 (by simp)
  obtain ⟨c0, s0t, rfl⟩ : ∃ c0 t, s0 = c0 :: t := by
    cases s0 with
    | nil => exact absurd rfl hs0
    | cons a b => exact ⟨a, b, rfl⟩
  have hc0 : safeChar c0 = true := hsc (c0 :: s0t) (by simp) c0 (by simp)
  have hPne : joinSep '/' ((c0 :: s0t) :: rest) ≠ [] := by
    intro h
    have := joinSep_head '/' (c0 :: s0t) rest (by simp)
    rw [h] at this
    simp at this
  have hheadX :
      (joinSep '/' ((c0 :: s0t) :: rest) ++ ".git".toList).head? = some c0 := by
    rw [List.head?_append_of_ne_nil _ hPne, joinSep_head '/' _ rest (by simp)]
    rfl
  have hlastX :
      (joinSep '/' ((c0 :: s0t) :: rest) ++ ".git".toList).getLast? = some 't' := by
    rw [List.getLast?_append_of_ne_nil _ (by decide : (".git".toList : Str) ≠ [])]
    decide
  have hXne : joinSep '/' ((c0 :: s0t) :: rest) ++ ".git".toList ≠ [] := by
    intro h
    rw [h] at hheadX
    simp at hheadX
  have htrim : strTrim (joinSep '/' ((c0 :: s0t) :: rest) ++ ".git".toList) =
      joinSep '/' ((c0 :: s0t) :: rest) ++ ".git".toList := by
    refine strTrim_eq_self (fun c hc => ?_) (fun c hc => ?_)
    · rw [hheadX] at hc
      obtain rfl := Option.some.inj hc
      exact (safeChar_facts hc0).2.2.2.2.2.2.1
    · rw [hlastX] at hc
      obtain rfl := Option.some.inj hc
      decide
  have hstrip : stripSlashes (joinSep '/' ((c0 :: s0t) :: rest) ++ ".git".toList) =
      joinSep '/' ((c0 :: s0t) :: rest) ++ ".git".toList := by
    refine stripSlashes_eq_self (fun c hc => ?_) (fun c hc => ?_)
    · rw [hheadX] at hc
      obtain rfl := Option.some.inj hc
      exact (safeChar_facts hc0).2.1
    · rw [hlastX] at hc
      obtain rfl := Option.some.inj hc
      decide
  have hpipe := splitChar_filter_joined ((c0 :: s0t) :: rest) hne hsne hsc
  simp only [splitPathSegments]
  rw [htrim, hstrip, if_neg hXne, hpipe,
    if_neg (setLast_ne_nil hne), setLast_comp]
  exact setLast_id _ dropGit_append _

/-- `splitPathSegments` also recovers the segments when the joined form
carries a leading slash (the URL pathname case). -/
theorem splitPathSegments_slash_joined (ss : List Str) (hne : ss ≠ [])
    (hsne : ∀ s ∈ ss, s ≠ [])
    (hsc : ∀ s ∈ ss, ∀ c ∈ s, safeChar c = true) :
    splitPathSegments ('/' :: (joinSep '/' ss ++ ".git".toList)) = ss := by
  obtain ⟨s0, rest, rfl⟩ : ∃ s0 rest, ss = s0 :: rest := by
    cases ss with
    | nil => exact absurd rfl hne
    | cons a b => exact ⟨a, b, rfl⟩
  have hs0 := hsne s0 (by simp)
  obtain ⟨c0, s0t, rfl⟩ : ∃ c0 t, s0 = c0 :: t := by
    cases s0 with
    | nil => exact absurd rfl hs0
    | cons a b => exact ⟨a, b, rfl⟩
  have hc0 : safeChar c0 = true := hsc (c0 :: s0t) (by simp) c0 (by simp)
  have hPne : joinSep '/' ((c0 :: s0t) :: rest) ≠ [] := by
    intro h
    have := joinSep_head '/' (c0 :: s0t) rest (by simp)
    rw [h] at this
    simp at this
  have hheadX :
      (joinSep '/' ((c0 :: s0t) :: rest) ++ ".git".toList).head? = some c0 := by
    rw [List.head?_append_of_ne_nil _ hPne, joinSep_head '/' _ rest (by simp)]
    rfl
  have hlastX :
      (joinSep '/' ((c0 :: s0t) :: rest) ++ ".git".toList).getLast? = some 't' := by
    rw [List.getLast?_append_of_ne_nil _ (by decide : (".git".toList : Str) ≠ [])]
    decide
  have hXne : joinSep '/' ((c0 :: s0t) :: rest) ++ ".git".toList ≠ [] := by
    intro h
    rw [h] at hheadX
    simp at hheadX
  have hlastX' :
      ('/' :: (joinSep '/' ((c0 :: s0t) :: rest) ++ ".git".toList)).getLast? = some 't' := by
    have : ('/' :: (joinSep '/' ((c0 :: s0t) :: rest) ++ ".git".toList)) =
        ['/'] ++ (joinSep '/' ((c0 :: s0t) :: rest) ++ ".git".toList) := rfl
    rw [this, List.getLast?_append_of_ne_nil _ hXne]
    exact hlastX
  have htrim : strTrim ('/' :: (joinSep '/' ((c0 :: s0t) :: rest) ++ ".git".toList)) =
      '/' :: (joinSep '/' ((c0 :: s0t) :: rest) ++ ".git".toList) := by
    refine strTrim_eq_self (fun c hc => ?_) (fun c hc => ?_)
    · obtain rfl := Option.some.inj hc
      decide
    · rw [hlastX'] at hc
      obtain rfl := Option.some.inj hc
      decide
  have hstrip : stripSlashes ('/' :: (joinSep '/' ((c0 :: s0t) :: rest) ++ ".git".toList)) =
      joinSep '/' ((c0 :: s0t) :: rest) ++ ".git".toList := by
    unfold stripSlashes
    rw [List.dropWhile_cons, if_pos (by decide : (decide ('/' = '/')) = true)]
    rw [dropWhile_eq_self_head (fun x => decide (x = '/'))
        (joinSep '/' ((c0 :: s0t) :: rest) ++ ".git".toList)
        (fun c hc => by
          rw [hheadX] at hc
          obtain rfl := Option.some.inj hc
          exact decide_eq_false (safeChar_facts hc0).2.1)]
    rw [dropWhile_eq_self_head (fun x => decide (x = '/'))
        (joinSep '/' ((c0 :: s0t) :: rest) ++ ".git".toList).reverse
        (fun c hc => by
          rw [List.head?_reverse, hlastX] at hc
          obtain rfl := Option.some.inj hc
          decide)]
    exact List.reverse_reverse _
  have hpipe := splitChar_filter_joined ((c0 :: s0t) :: rest) hne hsne hsc
  simp only [splitPathSegments]
  rw [htrim, hstrip, if_neg hXne, hpipe,
    if_neg (setLast_ne_nil hne), setLast_comp]
  exact setLast_id _ dropGit_append _

/-- `normalizePathSegments` only depends on the lowercased host. -/
theorem normalize_host_congr {h h' : Str} (ss : List Str)
    (hl : lowerStr h = lowerStr h') :
    normalizePathSegments h ss = normalizePathSegments h' ss := by
  unfold normalizePathSegments
  rw [hl]

/-- `normalizePathSegments` is idempotent. -/
theorem normalize_idem (host : Str) (ss : List Str) :
    normalizePathSegments host (normalizePathSegments host ss) =
      normalizePathSegments host ss := by
  by_cases hg : lowerStr host = "github.com".toList
  · by_cases hm : 3 ≤ ss.length ∧ ss.getD 2 [] ∈ GITHUB_WEB_MARKERS
    · have h1 : normalizePathSegments host ss = ss.take 2 := by
        unfold normalizePathSegments
        rw [if_neg (fun hne => hne hg), if_pos hm]
      rw [h1]
      unfold normalizePathSegments
      rw [if_neg (fun hne => hne hg), if_neg (by
        rintro ⟨hlen, -⟩
        rw [List.length_take] at hlen
        omega)]
    · have h1 : normalizePathSegments host ss = ss := by
        unfold normalizePathSegments
        rw [if_neg (fun hne => hne hg), if_neg hm]
      rw [h1, h1]
  · have h1 : normalizePathSegments host ss = ss := by
      unfold normalizePathSegments
      rw [if_pos hg]
    rw [h1, h1]

/-- Successful `validateSegments` means at least two segments, each
non-empty and neither `.` nor `..`. -/
theorem validateSegments_ok_inv {segs : List Str}
    (h : validateSegments segs = .ok ()) :
    2 ≤ segs.length ∧ ∀ s ∈ segs, s ≠ [] ∧ s ≠ ['.'] ∧ s ≠ ['.', '.'] := by
  unfold validateSegments at h
  split at h
  · exact absurd h (by simp)
  · split at h
    · exact absurd h (by simp)
    · rename_i h1 h2
      refine ⟨by omega, fun s hs => ?_⟩
      simp at h2
      exact h2 s hs

/-- Forward evaluation of `buildParsed` on already-normalized, valid
segments. -/
theorem buildParsed_eval {raw host : Str} {ss : List Str} {proto : Proto}
    (hnorm : normalizePathSegments host ss = ss)
    (hval : validateSegments ss = .ok ()) :
    buildParsed raw host ss proto =
      .ok ⟨raw, lowerStr host, ss, canonicalOf proto (lowerStr host) ss,
        makeRepoKey (lowerStr host) ss⟩ := by
  cases proto <;> simp [buildParsed, canonicalOf, hnorm, hval]

/-- Inversion of a successful `buildParsed`. -/
theorem buildParsed_ok_inv {raw host : Str} {ssIn : List Str} {proto : Proto}
    {i : ParsedRepoUrl} (h : buildParsed raw host ssIn proto = .ok i) :
    validateSegments (normalizePathSegments host ssIn) = .ok () ∧
    i = ⟨raw, lowerStr host, normalizePathSegments host ssIn,
      canonicalOf proto (lowerStr host) (normalizePathSegments host ssIn),
      makeRepoKey (lowerStr host) (normalizePathSegments host ssIn)⟩ := by
  rcases hv : validateSegments (normalizePathSegments host ssIn) with e | u
  · cases proto <;> simp [buildParsed, hv] at h
  · cases u
    refine ⟨rfl, ?_⟩
    cases proto <;>
      · simp only [buildParsed, canonicalOf, hv] at h ⊢
        simp only [Except.ok.injEq] at h
        exact h.symm

/-- A `some` result of `parseHostWithPath` is a committed `buildParsed`. -/
theorem parseHostWithPath_some_inv {raw : Str}
    {res : Except RepoPluginError ParsedRepoUrl}
    (h : parseHostWithPath raw = some res) :
    ∃ host ss, res = buildParsed raw host ss .https := by
  simp only [parseHostWithPath] at h
  repeat' split at h
  all_goals first
    | exact ⟨_, _, (Option.some.inj h).symm⟩
    | exact absurd h (by simp)

/-- A `some` result of `parseGitHubShorthand` is a committed `buildParsed`. -/
theorem parseGitHubShorthand_some_inv {raw : Str}
    {res : Except RepoPluginError ParsedRepoUrl}
    (h : parseGitHubShorthand raw = some res) :
    ∃ host ss, res = buildParsed raw host ss .https := by
  simp only [parseGitHubShorthand] at h
  repeat' split at h
  all_goals first
    | exact ⟨_, _, (Option.some.inj h).symm⟩
    | exact absurd h (by simp)

/-- Every successful parse is a successful `buildParsed`. -/
theorem parseRepoUrl_ok_inv {r : Str} {b : Bool} {i : ParsedRepoUrl}
    (hp : parseRepoUrl r b = .ok i) :
    ∃ raw0 host0 ss0 proto, buildParsed raw0 host0 ss0 proto = .ok i := by
  simp only [parseRepoUrl, parseHttpLikeUrl] at hp
  split at hp
  · exact absurd hp (by simp)
  · split at hp
    · split at hp
      · exact absurd hp (by simp)
      · split at hp
        · exact absurd hp (by simp)
        · exact ⟨_, _, _, _, hp⟩
    · split at hp
      · rename_i res heq
        obtain ⟨h0, ss0, rfl⟩ := parseHostWithPath_some_inv heq
        exact ⟨_, _, _, _, hp⟩
      · split at hp
        · rename_i res heq
          obtain ⟨h0, ss0, rfl⟩ := parseGitHubShorthand_some_inv heq
          exact ⟨_, _, _, _, hp⟩
        · split at hp
          · split at hp
            · exact ⟨_, _, _, _, hp⟩
            · split at hp
              · split at hp
                · exact absurd hp (by simp)
                · split at hp
                  · exact ⟨_, _, _, _, hp⟩
                  · exact absurd hp (by simp)
              · exact absurd hp (by simp)
          · exact absurd hp (by simp)

/-- Characters of a `joinSep` are the separator or block characters. -/
theorem mem_joinSep {sep : Char} {ss : List Str} {c : Char}
    (h : c ∈ joinSep sep ss) : c = sep ∨ ∃ s ∈ ss, c ∈ s := by
  induction ss with
  | nil => simp [joinSep] at h
  | cons s rest ih =>
    cases rest with
    | nil => exact .inr ⟨s, by simp, h⟩
    | cons s' rest' =>
      rcases List.mem_append.mp h with h2 | h2
      · exact .inr ⟨s, by simp, h2⟩
      · rcases List.mem_cons.mp h2 with h3 | h3
        · exact .inl h3
        · rcases ih h3 with h4 | ⟨u, hu, hcu⟩
          · exact .inl h4
          · exact .inr ⟨u, by simp [hu], hcu⟩

/-- `jsAuthorityHost` on a safe non-empty host: no userinfo or port is
found, the host survives (lowercased for special schemes). -/
theorem jsAuthorityHost_safe (sp : Bool) (h : Str) (hne : h ≠ [])
    (hh : ∀ c ∈ h, safeChar c = true)
    (hnum : endsInANumber (lowerStr h) = false) :
    jsAuthorityHost sp h = some (if sp then lowerStr h else h) := by
  simp only [jsAuthorityHost]
  rw [takeWhile_all _ h.reverse fun c hc =>
    decide_eq_true (safeChar_facts (hh c (List.mem_reverse.mp hc))).2.2.1]
  rw [List.reverse_reverse]
  rw [takeWhile_all _ h fun c hc => decide_eq_true (safeChar_facts (hh c hc)).1]
  rw [List.drop_length]
  cases sp <;> simp [hne, hnum]

/-- `jsPathname` fixes a slash-led path of safe, non-dot segments with the
`.git` suffix on the last. -/
theorem jsPathname_safe (sp : Bool) (ss : List Str) (hne : ss ≠ [])
    (hsne : ∀ s ∈ ss, s ≠ [])
    (hsc : ∀ s ∈ ss, ∀ c ∈ s, safeChar c = true)
    (hnd : ∀ s ∈ ss, s ≠ ['.'] ∧ s ≠ ['.', '.']) :
    jsPathname sp ('/' :: (joinSep '/' ss ++ ".git".toList)) =
      '/' :: (joinSep '/' ss ++ ".git".toList) := by
  have hjoin : joinSep '/' ss ++ ".git".toList =
      joinSep '/' (setLast (· ++ ".git".toList) ss) :=
    (joinSep_setLast_append '/' (".git".toList) ss hne).symm
  have hmem : ∀ x ∈ setLast (· ++ ".git".toList) ss, ∀ c ∈ x, c ≠ '/' := by
    intro x hx c hc
    rcases mem_setLast hx with h | ⟨s, hs, rfl⟩
    · exact (safeChar_facts (hsc x h c hc)).2.1
    · rcases List.mem_append.mp hc with h2 | h2
      · exact (safeChar_facts (hsc s hs c h2)).2.1
      · have hG : (".git".toList : Str) = ['.', 'g', 'i', 't'] := rfl
        rw [hG] at h2
        simp only [List.mem_cons, List.not_mem_nil, or_false] at h2
        rcases h2 with rfl | rfl | rfl | rfl <;> decide
  have hdots : ∀ x ∈ setLast (· ++ ".git".toList) ss,
      isDoubleDotSeg x = false ∧ isSingleDotSeg x = false := by
    intro x hx
    rcases mem_setLast hx with h | ⟨s, hs, rfl⟩
    · exact seg_not_dotlike (hnd x h).1 (hnd x h).2 (hsc x h)
    · exact appended_not_dotlike s
  show '/' :: joinSep '/' (processDots [] (splitChar '/' (joinSep '/' ss ++ ".git".toList))) = _
  rw [hjoin, splitChar_joinSep (setLast_ne_nil hne) hmem, processDots_id hdots]
  simp

/-- `jsUrlAuthPath` on a safe host followed by a query-free path. -/
theorem jsUrlAuthPath_safe (sp : Bool) (lsch h Y : Str)
    (hne : h ≠ []) (hh : ∀ c ∈ h, safeChar c = true)
    (hnum : endsInANumber (lowerStr h) = false)
    (hY : ∀ c ∈ Y, c = '/' ∨ safeChar c = true) :
    jsUrlAuthPath sp lsch (h ++ '/' :: Y) =
      some ⟨lsch ++ [':'], (if sp then lowerStr h else h), jsPathname sp ('/' :: Y)⟩ := by
  have hfacts : ∀ c ∈ h, (fun c => decide (c ≠ '/' ∧ c ≠ '?' ∧ c ≠ '#')) c = true :=
    fun c hc => decide_eq_true ⟨(safeChar_facts (hh c hc)).2.1,
      (safeChar_facts (hh c hc)).2.2.2.1, (safeChar_facts (hh c hc)).2.2.2.2.1⟩
  simp only [jsUrlAuthPath]
  rw [takeWhile_append_stop _ h '/' Y hfacts (by decide)]
  rw [List.drop_left]
  rw [jsAuthorityHost_safe sp h hne hh hnum]
  rw [takeWhile_all _ ('/' :: Y) (fun c hc => by
    rcases List.mem_cons.mp hc with rfl | hc2
    · decide
    · rcases hY c hc2 with rfl | hs
      · decide
      · exact decide_eq_true ⟨(safeChar_facts hs).2.2.2.1, (safeChar_facts hs).2.2.2.2.1⟩)]

/-- Membership facts for the body of a canonical URL: every character is a
slash or safe or one of `.git`'s characters. -/
theorem canonical_body_chars {h : Str} {ss : List Str}
    (hh : ∀ c ∈ h, safeChar c = true)
    (hsc : ∀ s ∈ ss, ∀ c ∈ s, safeChar c = true) :
    ∀ c ∈ h ++ '/' :: (joinSep '/' ss ++ ".git".toList),
      c = '/' ∨ safeChar c = true ∨ c ∈ (".git".toList : Str) := by
  intro c hc
  rcases List.mem_append.mp hc with h1 | h1
  · exact .inr (.inl (hh c h1))
  · rcases List.mem_cons.mp h1 with rfl | h2
    · exact .inl rfl
    · rcases List.mem_append.mp h2 with h3 | h3
      · rcases mem_joinSep h3 with rfl | ⟨s, hs, hcs⟩
        · exact .inl rfl
        · exact .inr (.inl (hsc s hs c hcs))
      · exact .inr (.inr h3)

/-- Evaluation of the URL model on a canonical https clone URL over a safe
host and safe, non-dot segments. -/
theorem jsURL_https_eval (h : Str) (ss : List Str)
    (hne : h ≠ [])
    (hh : ∀ c ∈ h, safeChar c = true)
    (hnum : endsInANumber (lowerStr h) = false)
    (hssne : ss ≠ [])
    (hsne : ∀ s ∈ ss, s ≠ [])
    (hsc : ∀ s ∈ ss, ∀ c ∈ s, safeChar c = true)
    (hnd : ∀ s ∈ ss, s ≠ ['.'] ∧ s ≠ ['.', '.']) :
    jsURL ("https://".toList ++ h ++ '/' :: joinSep '/' ss ++ ".git".toList) =
      some ⟨"https:".toList, lowerStr h,
        '/' :: (joinSep '/' ss ++ ".git".toList)⟩ := by
  have hX : "https://".toList ++ h ++ '/' :: joinSep '/' ss ++ ".git".toList =
      'h' :: 't' :: 't' :: 'p' :: 's' :: ':' :: '/' :: '/' ::
        (h ++ '/' :: (joinSep '/' ss ++ ".git".toList)) := by
    simp
  rw [hX]
  have hscheme : jsScheme ('h' :: 't' :: 't' :: 'p' :: 's' :: ':' :: '/' :: '/' ::
      (h ++ '/' :: (joinSep '/' ss ++ ".git".toList))) = "https".toList := rfl
  unfold jsURL
  rw [hscheme]
  rw [if_neg (by decide)]
  show jsUrlWithRest (lowerStr "https".toList)
      (h ++ '/' :: (joinSep '/' ss ++ ".git".toList)) = _
  have hlow : lowerStr "https".toList = "https".toList := by decide
  rw [hlow]
  have hwr : ∀ rest : Str, jsUrlWithRest ("https".toList) rest =
      jsUrlAuthPath true ("https".toList)
        (rest.map (fun c => if c = '\\' then '/' else c)) := fun rest => rfl
  rw [hwr]
  have hmap : (h ++ '/' :: (joinSep '/' ss ++ ".git".toList)).map
      (fun c => if c = '\\' then '/' else c) =
      h ++ '/' :: (joinSep '/' ss ++ ".git".toList) := by
    have := canonical_body_chars hh hsc
    refine (List.map_congr_left fun c hc => ?_).trans (List.map_id _)
    rcases this c hc with rfl | hs | hg
    · rfl
    · simp only [id]
      exact if_neg fun hbs => absurd (safeChar_facts hs).2.2.2.2.2.2.2.2 (by rw [hbs]; decide)
    · have hG : (".git".toList : Str) = ['.', 'g', 'i', 't'] := rfl
      rw [hG] at hg
      simp only [List.mem_cons, List.not_mem_nil, or_false] at hg
      rcases hg with rfl | rfl | rfl | rfl <;> rfl
  rw [hmap]
  rw [jsUrlAuthPath_safe true ("https".toList) h (joinSep '/' ss ++ ".git".toList) hne hh hnum
    (fun c hc => by
      rcases List.mem_append.mp hc with h3 | h3
      · rcases mem_joinSep h3 with rfl | ⟨s, hs, hcs⟩
        · exact .inl rfl
        · exact .inr (hsc s hs c hcs)
      · have hG : (".git".toList : Str) = ['.', 'g', 'i', 't'] := rfl
        rw [hG] at h3
        simp only [List.mem_cons, List.not_mem_nil, or_false] at h3
        rcases h3 with rfl | rfl | rfl | rfl <;> exact .inr (by decide))]
  rw [jsPathname_safe true ss hssne hsne hsc hnd]
  rfl

/-- Re-parsing a canonical https URL over a safe lowercase host and safe,
validated, normalization-stable segments succeeds and reproduces host,
segments and key (the canonical URL is a fixed point of the parser). -/
theorem parse_https_canonical (h : Str) (ss : List Str)
    (hne : h ≠ []) (hh : ∀ c ∈ h, safeChar c = true)
    (hlow : lowerStr h = h)
    (hnum : endsInANumber h = false)
    (hssne : ss ≠ []) (hval : validateSegments ss = .ok ())
    (hsc : ∀ s ∈ ss, ∀ c ∈ s, safeChar c = true)
    (hstab : normalizePathSegments h ss = ss) :
    parseRepoUrl (canonicalOf .https h ss) true =
      .ok ⟨canonicalOf .https h ss, h, ss, canonicalOf .https h ss,
        makeRepoKey h ss⟩ := by
  obtain ⟨hlen, hprops⟩ := validateSegments_ok_inv hval
  have hsne : ∀ s ∈ ss, s ≠ [] := fun s hs => (hprops s hs).1
  have hnd : ∀ s ∈ ss, s ≠ ['.'] ∧ s ≠ ['.', '.'] :=
    fun s hs => ⟨(hprops s hs).2.1, (hprops s hs).2.2⟩
  have hX : canonicalOf .https h ss =
      'h' :: 't' :: 't' :: 'p' :: 's' :: ':' :: '/' :: '/' ::
        (h ++ '/' :: (joinSep '/' ss ++ ".git".toList)) := by
    simp [canonicalOf]
  have hhead : (canonicalOf .https h ss).head? = some 'h' := by rw [hX]; rfl
  have hlast : (canonicalOf .https h ss).getLast? = some 't' := by
    show (("https://".toList ++ h ++ '/' :: joinSep '/' ss) ++ ".git".toList).getLast? = _
    rw [List.getLast?_append_of_ne_nil _ (by decide : (".git".toList : Str) ≠ [])]
    decide
  have htrim : strTrim (canonicalOf .https h ss) = canonicalOf .https h ss :=
    strTrim_eq_self
      (fun c hc => by rw [hhead] at hc; obtain rfl := Option.some.inj hc; decide)
      (fun c hc => by rw [hlast] at hc; obtain rfl := Option.some.inj hc; decide)
  have hne2 : canonicalOf .https h ss ≠ [] := by
    intro hcon
    rw [hcon] at hhead
    simp at hhead
  have htake : (canonicalOf .https h ss).take 8 = "https://".toList := by
    rw [hX]
    rfl
  have htest : httpOrHttpsTest (canonicalOf .https h ss) = true := by
    unfold httpOrHttpsTest
    rw [htake]
    exact decide_eq_true (Or.inr (by decide))
  have hurl := jsURL_https_eval h ss hne hh (by rw [hlow]; exact hnum) hssne hsne hsc hnd
  rw [show ("https://".toList ++ h ++ '/' :: joinSep '/' ss ++ ".git".toList) =
    canonicalOf .https h ss from rfl] at hurl
  simp only [parseRepoUrl]
  rw [htrim, if_neg hne2, if_pos htest]
  unfold parseHttpLikeUrl
  rw [hurl]
  show buildParsed (canonicalOf .https h ss) (lowerStr h)
    (splitPathSegments ('/' :: (joinSep '/' ss ++ ".git".toList))) .https = _
  rw [splitPathSegments_slash_joined ss hssne hsne hsc, hlow,
    buildParsed_eval hstab hval, hlow]

/-- Evaluation of the SSH pattern match on a well-formed `git@host:path`
string. -/
theorem sshMatch_eval (h path : Str) (hne : h ≠ [])
    (hhp : ∀ c ∈ h, c ≠ ':' ∧ c ≠ '/')
    (hpathne : path ≠ []) (hnolt : path.any isLineTerm = false) :
    sshMatch ('g' :: 'i' :: 't' :: '@' :: (h ++ ':' :: path)) =
      some (h, path) := by
  have hpre : ("git@".toList).isPrefixOf
      ('g' :: 'i' :: 't' :: '@' :: (h ++ ':' :: path)) = true := by
    rw [show ("git@".toList : Str) = ['g', 'i', 't', '@'] from rfl]
    simp [List.isPrefixOf]
  have hdrop : ('g' :: 'i' :: 't' :: '@' :: (h ++ ':' :: path)).drop 4 =
      h ++ ':' :: path := rfl
  have htw : (h ++ ':' :: path).takeWhile
      (fun c => decide (c ≠ ':' ∧ c ≠ '/')) = h :=
    takeWhile_append_stop _ h ':' path
      (fun c hc => decide_eq_true (hhp c hc)) (by decide)
  have hdl : (h ++ ':' :: path).drop h.length = ':' :: path :=
    List.drop_left h (':' :: path)
  simp only [sshMatch]
  rw [if_pos hpre, hdrop, htw, hdl]
  show (if h ≠ [] ∧ path ≠ [] ∧ ¬ path.any isLineTerm
      then some (h, path) else none) = some (h, path)
  exact if_pos ⟨hne, hpathne, by simp [hnolt]⟩

/-- Re-parsing a canonical ssh URL over a safe lowercase host and safe,
validated, normalization-stable segments succeeds and reproduces host,
segments and key. -/
theorem parse_ssh_canonical (h : Str) (ss : List Str)
    (hne : h ≠ []) (hh : ∀ c ∈ h, safeChar c = true)
    (hlow : lowerStr h = h)
    (hssne : ss ≠ []) (hval : validateSegments ss = .ok ())
    (hsc : ∀ s ∈ ss, ∀ c ∈ s, safeChar c = true)
    (hstab : normalizePathSegments h ss = ss) :
    parseRepoUrl (canonicalOf .ssh h ss) true =
      .ok ⟨canonicalOf .ssh h ss, h, ss, canonicalOf .ssh h ss,
        makeRepoKey h ss⟩ := by
  obtain ⟨hlen, hprops⟩ := validateSegments_ok_inv hval
  have hsne : ∀ s ∈ ss, s ≠ [] := fun s hs => (hprops s hs).1
  have hX : canonicalOf .ssh h ss =
      'g' :: 'i' :: 't' :: '@' ::
        (h ++ ':' :: (joinSep '/' ss ++ ".git".toList)) := by
    simp [canonicalOf]
  have hhead : (canonicalOf .ssh h ss).head? = some 'g' := by rw [hX]; rfl
  have hlast : (canonicalOf .ssh h ss).getLast? = some 't' := by
    show (("git@".toList ++ h ++ ':' :: joinSep '/' ss) ++ ".git".toList).getLast? = _
    rw [List.getLast?_append_of_ne_nil _ (by decide : (".git".toList : Str) ≠ [])]
    decide
  have htrim : strTrim (canonicalOf .ssh h ss) = canonicalOf .ssh h ss :=
    strTrim_eq_self
      (fun c hc => by rw [hhead] at hc; obtain rfl := Option.some.inj hc; decide)
      (fun c hc => by rw [hlast] at hc; obtain rfl := Option.some.inj hc; decide)
  have hne2 : canonicalOf .ssh h ss ≠ [] := by
    intro hcon
    rw [hcon] at hhead
    simp at hhead
  have htest : httpOrHttpsTest (canonicalOf .ssh h ss) = false := by
    rw [hX]
    unfold httpOrHttpsTest
    apply decide_eq_false
    rintro (h1 | h1) <;>
      simp +decide [List.take_succ_cons, lowerStr, lowChar] at h1
  have hpre : ("git@".toList).isPrefixOf (canonicalOf .ssh h ss) = true := by
    rw [hX, show ("git@".toList : Str) = ['g', 'i', 't', '@'] from rfl]
    simp [List.isPrefixOf]
  have hG : (".git".toList : Str) = ['.', 'g', 'i', 't'] := rfl
  have hpathne : joinSep '/' ss ++ ".git".toList ≠ [] := by
    intro hcon
    rw [List.append_eq_nil] at hcon
    rw [hG] at hcon
    exact absurd hcon.2 (by simp)
  have hnolt : (joinSep '/' ss ++ ".git".toList).any isLineTerm = false := by
    rw [List.any_eq_false]
    intro c hc
    rcases List.mem_append.mp hc with h3 | h3
    · rcases mem_joinSep h3 with rfl | ⟨s, hs, hcs⟩
      · decide
      · rw [(safeChar_facts (hsc s hs c hcs)).2.2.2.2.2.2.2.1]
        simp
    · rw [hG] at h3
      simp only [List.mem_cons, List.not_mem_nil, or_false] at h3
      rcases h3 with rfl | rfl | rfl | rfl <;> decide
  have hmatch : sshMatch (canonicalOf .ssh h ss) =
      some (h, joinSep '/' ss ++ ".git".toList) := by
    rw [hX]
    exact sshMatch_eval h _ hne
      (fun c hc => ⟨(safeChar_facts (hh c hc)).1, (safeChar_facts (hh c hc)).2.1⟩)
      hpathne hnolt
  have hhwp : parseHostWithPath (canonicalOf .ssh h ss) = none := by
    unfold parseHostWithPath
    rw [if_pos (Or.inr hpre)]
  have hsh : parseGitHubShorthand (canonicalOf .ssh h ss) = none := by
    unfold parseGitHubShorthand
    rw [if_pos (Or.inr hpre)]
  simp only [parseRepoUrl]
  rw [htrim, if_neg hne2, if_neg (by simp [htest]), hhwp, hsh, hmatch]
  show buildParsed (canonicalOf .ssh h ss) h
    (splitPathSegments (joinSep '/' ss ++ ".git".toList)) .ssh = _
  rw [splitPathSegments_joined ss hssne hsne hsc,
    buildParsed_eval hstab hval, hlow]

/-- C10: amended round trip.  If a parse succeeds and the resulting host is
non-empty, host and segments are made of URL-safe characters (ASCII
letters, digits, `-`, `_`, `.`), the host does not end in a number (the
WHATWG check that routes a host into the IPv4 parser) and no host label
carries the punycode `xn--` prefix (IDNA is outside the URL model, and the
real `domain to ASCII` rewrites or rejects such labels), then re-parsing
the canonical URL succeeds and reproduces host, path segments and
comparison key. -/
theorem canonical_roundtrip_amended {r : Str} {b : Bool} {i : ParsedRepoUrl}
    (hp : parseRepoUrl r b = .ok i)
    (hhost : i.host ≠ [])
    (hhc : ∀ c ∈ i.host, safeChar c = true)
    (hsc : ∀ s ∈ i.pathSegments, ∀ c ∈ s, safeChar c = true)
    (hnum : endsInANumber i.host = false)
    (hxn : hasPunycodeLabel i.host = false) :
    ∃ j, parseRepoUrl i.canonicalUrl true = .ok j ∧
      j.host = i.host ∧ j.pathSegments = i.pathSegments ∧ j.key = i.key := by
  obtain ⟨raw0, host0, ss0, proto, hb⟩ := parseRepoUrl_ok_inv hp
  obtain ⟨hval, hi⟩ := buildParsed_ok_inv hb
  subst hi
  dsimp only at hhost hhc hsc hnum hxn ⊢
  have hlowi : lowerStr (lowerStr host0) = lowerStr host0 := lowerStr_idem host0
  have hstab : normalizePathSegments (lowerStr host0)
      (normalizePathSegments host0 ss0) = normalizePathSegments host0 ss0 :=
    (normalize_host_congr _ hlowi).trans (normalize_idem host0 ss0)
  have hssne : normalizePathSegments host0 ss0 ≠ [] := by
    intro hcon
    have hlen := (validateSegments_ok_inv hval).1
    rw [hcon] at hlen
    simp at hlen
  cases proto with
  | https =>
    exact ⟨_, parse_https_canonical (lowerStr host0) _ hhost hhc hlowi hnum hssne
      hval hsc hstab, rfl, rfl, rfl⟩
  | ssh =>
    exact ⟨_, parse_ssh_canonical (lowerStr host0) _ hhost hhc hlowi hssne
      hval hsc hstab, rfl, rfl, rfl⟩

/-- Witness for the amended round trip at the shorthand input
`acme/widgets`. -/
theorem canonical_roundtrip_amended_witness :
    parseRepoUrl ("acme/widgets".toList) false = .ok witAmI ∧
    ∃ j, parseRepoUrl witAmI.canonicalUrl true = .ok j ∧
      j.host = witAmI.host ∧ j.pathSegments = witAmI.pathSegments ∧
      j.key = witAmI.key :=
  ⟨by decide,
    @canonical_roundtrip_amended ("acme/widgets".toList) false witAmI
      (by decide) (by decide) (by decide) (by decide) (by decide) (by decide)⟩

end RepoPlugin
